import Mathlib

set_option linter.unusedVariables false

/-!
Verification of the constriction entropy-coding library core.

This file gives a shallow embedding of the library's range coder
(src/stream/queue.rs), chain coder (src/stream/chain.rs), cursor backend
(src/backends.rs), Auryn (src/auryn.rs) and Huffman codec
(src/symbol/huffman.rs), and proves the specified properties about them.

Machine words of bit width `wb` and coder states of bit width `sb` are
embedded as natural numbers; wrapping arithmetic is made explicit with
`% 2 ^ sb` (resp. `% 2 ^ wb`) exactly where the Rust source wraps.
Entropy models are external collaborators of the coders: they are embedded
as a structure of two pure functions, with the contract from the source
stated as explicit hypotheses of the theorems.
-/

namespace Constriction

/-- Entropy model interface: `lcp` is `left_cumulative_and_probability`
(returning `none` for an impossible symbol) and `qf` is `quantile_function`
(returning symbol, left-sided cumulative and probability). -/
structure Model where
  lcp : Nat → Option (Nat × Nat)
  qf : Nat → Nat × Nat × Nat

/-- Encoder-side model contract: any probability reported for a symbol is
nonzero and fits in `PRECISION` bits. -/
def Model.EncOk (prec : Nat) (m : Model) : Prop :=
  ∀ s c p, m.lcp s = some (c, p) → 0 < p ∧ p ≤ 2 ^ prec

/-- Decoder-side model contract, from the source's documented fixed-point
model: on every quantile `q < 2 ^ PRECISION` the quantile function returns a
triple `(s, c, p)` with `c ≤ q < c + p` and `c + p ≤ 2 ^ PRECISION`, and
`left_cumulative_and_probability` agrees with it on `s`. -/
def Model.Coherent (prec : Nat) (m : Model) : Prop :=
  ∀ q, q < 2 ^ prec →
    (m.qf q).2.1 ≤ q ∧ q < (m.qf q).2.1 + (m.qf q).2.2 ∧
    (m.qf q).2.1 + (m.qf q).2.2 ≤ 2 ^ prec ∧
    m.lcp (m.qf q).1 = some ((m.qf q).2.1, (m.qf q).2.2)

/-- A concrete two-symbol model at `PRECISION = 2` with both probabilities
equal to 2, used as a test fixture. -/
def mUnif : Model :=
  ⟨fun s => if s = 0 then some (0, 2) else if s = 1 then some (2, 2) else none,
    fun q => if q < 2 then (0, 0, 2) else (1, 2, 2)⟩

/-- Pop the last word of a vector backend, as the stack-semantics read of a
`Vec` backend does in the source. -/
def vecPop (l : List Nat) : Option (Nat × List Nat) :=
  match l.getLast? with
  | none => none
  | some w => some (w, l.dropLast)

-- ==================== Cursor backend (src/backends.rs) ====================

/-- In-memory cursor backend over a buffer, with invariant `pos ≤ buf.length`. -/
structure Cursor where
  buf : List Nat
  pos : Nat
deriving DecidableEq, Repr

/-- Write error of a bounded backend. -/
inductive BoundedWriteError where
  | outOfSpace : BoundedWriteError
deriving DecidableEq, Repr

/-- Stack-semantics read of a `Cursor`: decrement `pos`, then return
`buf[pos]`; `none` when `pos = 0`. -/
def Cursor.readStack (cur : Cursor) : Option Nat × Cursor :=
  if cur.pos = 0 then (none, cur)
  else (some (cur.buf.getD (cur.pos - 1) 0), ⟨cur.buf, cur.pos - 1⟩)

/-- Queue-semantics read of a `Cursor`: return `buf[pos]`, then increment
`pos`; `none` when past the end. -/
def Cursor.readQueue (cur : Cursor) : Option Nat × Cursor :=
  match cur.buf.get? cur.pos with
  | some w => (some w, ⟨cur.buf, cur.pos + 1⟩)
  | none => (none, cur)

/-- Write of a `Cursor`: store the word at `buf[pos]` and increment `pos`;
fails with `OutOfSpace` when `pos` is at the end of the buffer, with the
error carrying the untouched cursor. -/
def Cursor.write (cur : Cursor) (w : Nat) :
    Except (BoundedWriteError × Cursor) Cursor :=
  if cur.pos < cur.buf.length then .ok ⟨cur.buf.set cur.pos w, cur.pos + 1⟩
  else .error (.outOfSpace, cur)

/-- Seek of a `Cursor`: rejects positions beyond the end of the buffer. -/
def Cursor.seek (cur : Cursor) (p : Nat) : Except Unit Cursor :=
  if p > cur.buf.length then .error () else .ok ⟨cur.buf, p⟩

/-- Remaining words of a queue-semantics cursor. -/
def Cursor.remainingQueue (cur : Cursor) : Nat := cur.buf.length - cur.pos

/-- Exhaustion check of a queue-semantics cursor. -/
def Cursor.exhaustedQueue (cur : Cursor) : Bool := cur.remainingQueue = 0

-- ==================== Range coder (src/stream/queue.rs) ====================

/-- Carry-handling situation of the range encoder: `normal`, or
`inverted n w0` holding back `n ≥ 1` words with `w0` the first inverted
lower word. -/
inductive EncoderSituation where
  | normal : EncoderSituation
  | inverted : Nat → Nat → EncoderSituation
deriving DecidableEq, Repr

/-- Range encoder state: written words, the `(lower, range)` pair, and the
carry situation. The backend is a growable vector. -/
structure RangeEncoder where
  bulk : List Nat
  lower : Nat
  range : Nat
  situation : EncoderSituation
deriving DecidableEq, Repr

/-- Frontend error of an encoder. -/
inductive EncoderFrontendError where
  | impossibleSymbol : EncoderFrontendError
deriving DecidableEq, Repr

/-- Fresh range encoder: empty bulk, `lower = 0`, `range = max`, normal
situation. -/
def RangeEncoder.new (sb : Nat) : RangeEncoder :=
  ⟨[], 0, 2 ^ sb - 1, .normal⟩

/-- Emptiness check of the range encoder: `range` still at its maximum and
no word written yet. -/
def RangeEncoder.isEmpty (sb : Nat) (e : RangeEncoder) : Bool :=
  e.range = 2 ^ sb - 1 && e.bulk.isEmpty

/-- Carry-resolution step of `RangeEncoder.encodeSymbol`: if the encoder is
in an inverted situation and the new interval no longer wraps the top of the
state, flush the held-back words (with carry applied if `newLower < oldLower`)
and return to the normal situation. -/
def resolveInversion (wb sb : Nat) (newLower oldLower range : Nat)
    (bulk : List Nat) (situation : EncoderSituation) :
    List Nat × EncoderSituation :=
  match situation with
  | .normal => (bulk, .normal)
  | .inverted n w0 =>
    if (newLower + range) % 2 ^ sb > newLower then
      if newLower < oldLower then
        (bulk ++ (w0 + 1) % 2 ^ wb :: List.replicate (n - 1) 0, .normal)
      else
        (bulk ++ w0 :: List.replicate (n - 1) (2 ^ wb - 1), .normal)
    else
      (bulk, .inverted n w0)

/-- One body of the encoder renormalization: shift a word out of `lower`
into the backend (or into the inversion bookkeeping) and shift `range` and
`lower` left by one word. The components are `(lower, range, bulk,
situation)`. -/
def encRenormBody (wb sb : Nat) (st : Nat × Nat × List Nat × EncoderSituation) :
    Nat × Nat × List Nat × EncoderSituation :=
  let lower := st.1
  let range := st.2.1
  let bulk := st.2.2.1
  let range2 := (range <<< wb) % 2 ^ sb
  let lowerWord := lower >>> (sb - wb)
  let lower2 := (lower <<< wb) % 2 ^ sb
  match st.2.2.2 with
  | .inverted n w0 => (lower2, range2, bulk, .inverted (n + 1) w0)
  | .normal =>
    if (lower2 + range2) % 2 ^ sb > lower2 then
      (lower2, range2, bulk ++ [lowerWord], .normal)
    else
      (lower2, range2, bulk, .inverted 1 lowerWord)

/-- The single conditional renormalization step of the source's
`encode_symbol`: run the body once exactly when `range` has dropped below
`2 ^ (State.BITS - Word.BITS)`. -/
def encRenormStep (wb sb : Nat) (st : Nat × Nat × List Nat × EncoderSituation) :
    Nat × Nat × List Nat × EncoderSituation :=
  if st.2.1 < 2 ^ (sb - wb) then encRenormBody wb sb st else st

/-- Modelled from the spec: the renormalization of the range encoder written
as a while-loop, iterating the body while `range < 2 ^ (State.BITS -
Word.BITS)`, with explicit fuel. -/
def encRenormLoopSpec (wb sb : Nat) :
    Nat → (Nat × Nat × List Nat × EncoderSituation) →
    Nat × Nat × List Nat × EncoderSituation
  | 0, st => st
  | fuel + 1, st =>
    if st.2.1 < 2 ^ (sb - wb) then
      encRenormLoopSpec wb sb fuel (encRenormBody wb sb st)
    else st

/-- One `encode_symbol` call of the range encoder. On an impossible symbol
the error carries the untouched coder. -/
def RangeEncoder.encodeSymbol (wb sb prec : Nat) (m : Model) (symbol : Nat)
    (e : RangeEncoder) : Except (EncoderFrontendError × RangeEncoder) RangeEncoder :=
  match m.lcp symbol with
  | none => .error (.impossibleSymbol, e)
  | some (c, p) =>
    let scale := e.range >>> prec
    let range1 := (scale * p) % 2 ^ sb
    let newLower := (e.lower + scale * c) % 2 ^ sb
    let bs := resolveInversion wb sb newLower e.lower range1 e.bulk e.situation
    let st := encRenormStep wb sb (newLower, range1, bs.1, bs.2)
    .ok ⟨st.2.2.1, st.1, st.2.1, st.2.2.2⟩

/-- Sequence of `encode_symbol` calls on the range encoder. -/
def RangeEncoder.encodeSeq (wb sb prec : Nat) :
    List (Model × Nat) → RangeEncoder →
    Except (EncoderFrontendError × RangeEncoder) RangeEncoder
  | [], e => .ok e
  | (m, s) :: rest, e =>
    match RangeEncoder.encodeSymbol wb sb prec m s e with
    | .error err => .error err
    | .ok e1 => RangeEncoder.encodeSeq wb sb prec rest e1

/-- Sealing of the range encoder: a no-op if no symbol was ever encoded,
otherwise resolve any pending inversion against `point = lower + (range - 1)`
and emit the top word of `point`. Returns the final written buffer. -/
def RangeEncoder.seal (wb sb : Nat) (e : RangeEncoder) : List Nat :=
  if e.range = 2 ^ sb - 1 then e.bulk
  else
    let point := (e.lower + (e.range + (2 ^ sb - 1)) % 2 ^ sb) % 2 ^ sb
    let bulk1 :=
      match e.situation with
      | .inverted n w0 =>
        if point < e.lower then
          e.bulk ++ (w0 + 1) % 2 ^ wb :: List.replicate (n - 1) 0
        else
          e.bulk ++ w0 :: List.replicate (n - 1) (2 ^ wb - 1)
      | .normal => e.bulk
    bulk1 ++ [point >>> (sb - wb)]

/-- Conversion of the range encoder into its compressed representation. -/
def RangeEncoder.intoCompressed (wb sb : Nat) (e : RangeEncoder) : List Nat :=
  RangeEncoder.seal wb sb e

/-- Range decoder state: a queue-semantics cursor over the compressed words,
the `(lower, range)` pair and the current `point`. -/
structure RangeDecoder where
  bulk : Cursor
  lower : Nat
  range : Nat
  point : Nat
deriving DecidableEq, Repr

/-- Frontend error of the range decoder. -/
inductive DecoderFrontendError where
  | invalidData : DecoderFrontendError
deriving DecidableEq, Repr

/-- Loop of `read_point`: read up to `k` more words into `point`.
Returns the point, the number of words read and the advanced cursor. -/
def readPointAux (wb sb : Nat) : Nat → Cursor → Nat → Nat × Nat × Cursor
  | 0, cur, point => (point, 0, cur)
  | k + 1, cur, point =>
    match cur.readQueue with
    | (none, cur1) => (point, 0, cur1)
    | (some w, cur1) =>
      let r := readPointAux wb sb k cur1 (((point <<< wb) % 2 ^ sb) ||| w)
      (r.1, r.2.1 + 1, r.2.2)

/-- Read the initial `point` of the range decoder: the first
`State.BITS / Word.BITS` words, left-aligned when fewer are available. -/
def readPoint (wb sb : Nat) (cur : Cursor) : Nat × Cursor :=
  let r := readPointAux wb sb (sb / wb) cur 0
  let numRead := r.2.1
  if numRead < sb / wb ∧ numRead ≠ 0 then
    ((r.1 <<< (sb - numRead * wb)) % 2 ^ sb, r.2.2)
  else
    (r.1, r.2.2)

/-- Range decoder constructed from a compressed buffer. -/
def RangeDecoder.fromCompressed (wb sb : Nat) (buf : List Nat) : RangeDecoder :=
  let r := readPoint wb sb ⟨buf, 0⟩
  ⟨r.2, 0, 2 ^ sb - 1, r.1⟩

/-- Emptiness check of the range decoder. -/
def RangeDecoder.maybeEmpty (wb sb : Nat) (d : RangeDecoder) : Bool :=
  d.bulk.exhaustedQueue &&
    (d.range = 2 ^ sb - 1 ||
      ((d.lower + d.range) % 2 ^ sb + (2 ^ sb - d.point)) % 2 ^ sb
        ≤ 2 ^ (sb - wb))

/-- One body of the decoder renormalization: shift `lower`, `range` and
`point` left by one word and shift the next compressed word (or a zero word
when the backend is exhausted) into `point`. The components are
`(lower, range, point, cursor)`. -/
def decRenormBody (wb sb : Nat) (st : Nat × Nat × Nat × Cursor) :
    Nat × Nat × Nat × Cursor :=
  let lower2 := (st.1 <<< wb) % 2 ^ sb
  let range2 := (st.2.1 <<< wb) % 2 ^ sb
  let point1 := (st.2.2.1 <<< wb) % 2 ^ sb
  match st.2.2.2.readQueue with
  | (some w, cur1) => (lower2, range2, point1 ||| w, cur1)
  | (none, cur1) => (lower2, range2, point1, cur1)

/-- The single conditional renormalization step of the source's
`decode_symbol`. -/
def decRenormStep (wb sb : Nat) (st : Nat × Nat × Nat × Cursor) :
    Nat × Nat × Nat × Cursor :=
  if st.2.1 < 2 ^ (sb - wb) then decRenormBody wb sb st else st

/-- Modelled from the spec: the renormalization of the range decoder written
as a while-loop with explicit fuel. -/
def decRenormLoopSpec (wb sb : Nat) :
    Nat → (Nat × Nat × Nat × Cursor) → Nat × Nat × Nat × Cursor
  | 0, st => st
  | fuel + 1, st =>
    if st.2.1 < 2 ^ (sb - wb) then
      decRenormLoopSpec wb sb fuel (decRenormBody wb sb st)
    else st

/-- One `decode_symbol` call of the range decoder: fails with `InvalidData`
exactly when the computed quantile overflows `PRECISION` bits; otherwise
updates the state like the encoder and renormalizes, shifting a zero word
into `point` when the backend is exhausted. -/
def RangeDecoder.decodeSymbol (wb sb prec : Nat) (m : Model) (d : RangeDecoder) :
    Except DecoderFrontendError (Nat × RangeDecoder) :=
  let scale := d.range >>> prec
  let quantile := (d.point + (2 ^ sb - d.lower)) % 2 ^ sb / scale
  if 2 ^ prec ≤ quantile then .error .invalidData
  else
    let t := m.qf quantile
    let lower1 := (d.lower + scale * t.2.1) % 2 ^ sb
    let range1 := (scale * t.2.2) % 2 ^ sb
    let st := decRenormStep wb sb (lower1, range1, d.point, d.bulk)
    .ok (t.1, ⟨st.2.2.2, st.1, st.2.1, st.2.2.1⟩)

/-- Sequence of `decode_symbol` calls on the range decoder. -/
def RangeDecoder.decodeSeq (wb sb prec : Nat) :
    List Model → RangeDecoder →
    Except DecoderFrontendError (List Nat × RangeDecoder)
  | [], d => .ok ([], d)
  | m :: rest, d =>
    match RangeDecoder.decodeSymbol wb sb prec m d with
    | .error err => .error err
    | .ok (s, d1) =>
      match RangeDecoder.decodeSeq wb sb prec rest d1 with
      | .error err => .error err
      | .ok (sigma, d2) => .ok (s :: sigma, d2)

-- ==================== Chain coder (src/stream/chain.rs) ====================

/-- Chain coder state: the `quantiles` backend (a vector read with stack
semantics by the decoder and appended to by the encoder), the `remainders`
backend (appended to by the decoder, read with stack semantics by the
encoder) and the two heads. -/
structure ChainCoder where
  quantiles : List Nat
  remainders : List Nat
  hq : Nat
  hr : Nat
deriving DecidableEq, Repr

/-- Frontend error of chain decoding. -/
inductive ChainFrontendError where
  | outOfData : ChainFrontendError
deriving DecidableEq, Repr

/-- Errors of chain encoding: an impossible symbol, or running out of words
on the `remainders` backend during a refill. -/
inductive ChainEncodeError where
  | impossibleSymbol : ChainEncodeError
  | outOfRemainders : ChainEncodeError
deriving DecidableEq, Repr

/-- Loop of `ChainCoderHeads::new`: shift words popped from the source into
the remainders head while it is below `2 ^ (State.BITS - Word.BITS -
PRECISION)`; `none` when the source runs out first. -/
def headsNewLoop (wb sb prec : Nat) (hr : Nat) (src : List Nat) :
    Option (Nat × List Nat) :=
  if hr < 2 ^ (sb - wb - prec) then
    match h : vecPop src with
    | none => none
    | some (w, src1) =>
      headsNewLoop wb sb prec (((hr <<< wb) % 2 ^ sb) ||| w) src1
  else some (hr, src)
termination_by src.length
decreasing_by
  have hne : src ≠ [] := by
    intro e
    rw [e] at h
    simp [vecPop] at h
  have : src1 = src.dropLast := by
    simp only [vecPop] at h
    rcases hl : src.getLast? with _ | w0
    · rw [hl] at h; exact absurd h (by simp)
    · rw [hl] at h; simp at h; exact h.2.symm
  rw [this, List.length_dropLast]
  have := List.length_pos.mpr hne
  omega

/-- Chain coder ready for decoding from `quantiles` input: pops a first
nonzero word, fills the remainders head, and starts with a whole-word
quantiles head. -/
def ChainCoder.fromQuantiles (wb sb prec : Nat) (input : List Nat) :
    Option ChainCoder :=
  match vecPop input with
  | none => none
  | some (w, rest) =>
    if w = 0 then none
    else
      match headsNewLoop wb sb prec w rest with
      | none => none
      | some (hr, rest1) => some ⟨rest1, [], 1, hr⟩

/-- Chain coder ready for encoding from `remainders` input: pops the
quantiles head, then a first nonzero word, then fills the remainders head. -/
def ChainCoder.fromRemainders (wb sb prec : Nat) (input : List Nat) :
    Option ChainCoder :=
  match vecPop input with
  | none => none
  | some (hq, rest) =>
    if hq = 0 then none
    else
      match vecPop rest with
      | none => none
      | some (w, rest1) =>
        if w = 0 then none
        else
          match headsNewLoop wb sb prec w rest1 with
          | none => none
          | some (hr, rest2) => some ⟨[], rest2, hq, hr⟩

/-- Loop flushing a head onto a backend word by word, with fuel; the fuel
argument is set so that it never runs out for a nonzero word size. -/
def flushStateAux (wb : Nat) : Nat → Nat → List Nat
  | 0, _ => []
  | fuel + 1, hr => if hr = 0 then [] else hr % 2 ^ wb :: flushStateAux wb fuel (hr >>> wb)

/-- Words written when flushing a head completely: the base `2 ^ wb` digits
of `hr`, least significant first. -/
def flushState (wb hr : Nat) : List Nat := flushStateAux wb hr hr

/-- The `j` least significant base `2 ^ wb` digits of a state, least
significant first: the words `flush_remainders_head` would emit. -/
def digitsLE (wb : Nat) : Nat → Nat → List Nat
  | 0, _ => []
  | j + 1, v => v % 2 ^ wb :: digitsLE wb j (v >>> wb)

/-- The documented invariants of `ChainCoderHeads`: the quantiles head is a
nonzero word with at most `Word::BITS - 1` leftover bits, and the remainders
head lies in `[2 ^ (State::BITS - Word::BITS - PRECISION), 2 ^ (State::BITS
- PRECISION))`. -/
def ChainInv (wb sb prec : Nat) (c : ChainCoder) : Prop :=
  1 ≤ c.hq ∧ c.hq < 2 ^ wb ∧
    2 ^ (sb - wb - prec) ≤ c.hr ∧ c.hr < 2 ^ (sb - prec)

/-- Whole-word boundary check of the chain coder. -/
def ChainCoder.isWhole (c : ChainCoder) : Bool := c.hq = 1

/-- Conversion of the chain coder into `(quantiles, remainders)`: flush the
remainders head onto `remainders`, then append the quantiles head. -/
def ChainCoder.intoRemainders (wb : Nat) (c : ChainCoder) : List Nat × List Nat :=
  (c.quantiles, c.remainders ++ flushState wb c.hr ++ [c.hq])

/-- Conversion of the chain coder into `(remainders, quantiles)`: requires a
whole-word boundary, then flushes the remainders head onto `quantiles`. -/
def ChainCoder.intoQuantiles (wb : Nat) (c : ChainCoder) :
    Option (List Nat × List Nat) :=
  if c.isWhole then some (c.remainders, c.quantiles ++ flushState wb c.hr)
  else none

/-- Tail of chain decoding shared by both head situations: extract the
quantile from the consumed word, query the model, push the remainder into
the remainders head and flush one word if the head overflows its invariant. -/
def chainDecodeTail (wb sb prec : Nat) (m : Model) (w hq1 : Nat)
    (q r : List Nat) (hr : Nat) : Nat × ChainCoder :=
  let quantile := if prec = wb then w else w % 2 ^ prec
  let t := m.qf quantile
  let rem := quantile - t.2.1
  let hr1 := (hr * t.2.2 + rem) % 2 ^ sb
  if 2 ^ (sb - prec) ≤ hr1 then
    (t.1, ⟨q, r ++ [hr1 % 2 ^ wb], hq1, hr1 >>> wb⟩)
  else
    (t.1, ⟨q, r, hq1, hr1⟩)

/-- One `decode_symbol` call of the chain coder: consume `PRECISION` bits
from the quantiles side (reading a fresh word if fewer than `PRECISION`
leftover bits are available) and push the remainder onto the remainders
head. -/
def ChainCoder.decodeSymbol (wb sb prec : Nat) (m : Model) (c : ChainCoder) :
    Except ChainFrontendError (Nat × ChainCoder) :=
  if prec = wb ∨ c.hq < 2 ^ prec then
    match vecPop c.quantiles with
    | none => .error .outOfData
    | some (w, q1) =>
      let hq1 :=
        if prec = wb then c.hq
        else ((c.hq <<< (wb - prec)) % 2 ^ wb) ||| (w >>> prec)
      .ok (chainDecodeTail wb sb prec m w hq1 q1 c.remainders c.hr)
  else
    .ok (chainDecodeTail wb sb prec m c.hq (c.hq >>> prec) c.quantiles
      c.remainders c.hr)

/-- Tail of chain encoding after the optional refill: recover the remainder
and quantile, divide the remainders head, and assemble the quantile into the
quantiles head, flushing a whole word if it is full. -/
def chainEncodeTail (wb sb prec : Nat) (cc p hr1 : Nat) (q r : List Nat)
    (hq : Nat) : ChainCoder :=
  let rem := hr1 % p
  let quantile := cc + rem
  let hr2 := hr1 / p
  if prec ≠ wb ∧ hq < 2 ^ (wb - prec) then
    ⟨q, r, ((hq <<< prec) % 2 ^ wb) ||| quantile, hr2⟩
  else
    let word := if prec = wb then quantile else ((hq <<< prec) % 2 ^ wb) ||| quantile
    let hq1 := if prec = wb then hq else hq >>> (wb - prec)
    ⟨q ++ [word], r, hq1, hr2⟩

/-- One `encode_symbol` call of the chain coder: refill the remainders head
from the `remainders` backend if it is too small for the divisor, then run
the encoding tail. On an impossible symbol or a failed refill the error
carries the untouched coder. -/
def ChainCoder.encodeSymbol (wb sb prec : Nat) (m : Model) (s : Nat)
    (c : ChainCoder) : Except (ChainEncodeError × ChainCoder) ChainCoder :=
  match m.lcp s with
  | none => .error (.impossibleSymbol, c)
  | some (cc, p) =>
    if c.hr < (p <<< (sb - wb - prec)) % 2 ^ sb then
      match vecPop c.remainders with
      | none => .error (.outOfRemainders, c)
      | some (w, r1) =>
        .ok (chainEncodeTail wb sb prec cc p (((c.hr <<< wb) % 2 ^ sb) ||| w)
          c.quantiles r1 c.hq)
    else
      .ok (chainEncodeTail wb sb prec cc p c.hr c.quantiles c.remainders c.hq)

/-- Sequence of chain `decode_symbol` calls, one per model. -/
def ChainCoder.decodeSeq (wb sb prec : Nat) :
    List Model → ChainCoder →
    Except ChainFrontendError (List Nat × ChainCoder)
  | [], c => .ok ([], c)
  | m :: rest, c =>
    match ChainCoder.decodeSymbol wb sb prec m c with
    | .error e => .error e
    | .ok (s, c1) =>
      match ChainCoder.decodeSeq wb sb prec rest c1 with
      | .error e => .error e
      | .ok (sigma, c2) => .ok (s :: sigma, c2)

/-- Sequence of chain `encode_symbol` calls in the given order. -/
def ChainCoder.encodeSeq (wb sb prec : Nat) :
    List (Nat × Model) → ChainCoder →
    Except (ChainEncodeError × ChainCoder) ChainCoder
  | [], c => .ok c
  | (s, m) :: rest, c =>
    match ChainCoder.encodeSymbol wb sb prec m s c with
    | .error e => .error e
    | .ok c1 => ChainCoder.encodeSeq wb sb prec rest c1

/-- The source's `encode_symbols_reverse`: encode the given
symbol-and-model pairs in reverse order. -/
def ChainCoder.encodeSymbolsReverse (wb sb prec : Nat)
    (pairs : List (Nat × Model)) (c : ChainCoder) :
    Except (ChainEncodeError × ChainCoder) ChainCoder :=
  ChainCoder.encodeSeq wb sb prec pairs.reverse c

-- ==================== Auryn (src/auryn.rs) ====================

/-- An ANS stack: a vector of words plus a state head. The `Stack` source
file is not part of src/; its operations below are modelled from the spec. -/
structure Stack where
  bulk : List Nat
  state : Nat
deriving DecidableEq, Repr

/-- Modelled from the spec: `Stack::flush_state` (the ANS Stack source is
missing from src/) flushes the low word of the state onto the bulk and
shifts the state right by one word. -/
def Stack.flushState (wb : Nat) (st : Stack) : Stack :=
  ⟨st.bulk ++ [st.state % 2 ^ wb], st.state >>> wb⟩

/-- Modelled from the spec: `Stack::refill_state_if_possible` (the ANS Stack
source is missing from src/) pops a word from the bulk, if any, and shifts
it into the state. -/
def Stack.refillStateIfPossible (wb sb : Nat) (st : Stack) : Stack :=
  match vecPop st.bulk with
  | none => st
  | some (w, b1) => ⟨b1, ((st.state <<< wb) % 2 ^ sb) ||| w⟩

/-- Modelled from the spec: `Stack::decode_remainder_off_state` (the ANS
Stack source is missing from src/) takes the state modulo the probability as
the remainder and divides the state by the probability. -/
def Stack.decodeRemainderOffState (p : Nat) (st : Stack) : Nat × Stack :=
  (st.state % p, ⟨st.bulk, st.state / p⟩)

/-- Modelled from the spec: `Stack::append_quantile_to_state` (the ANS Stack
source is missing from src/) shifts the quantile into the low `PRECISION`
bits of the state. -/
def Stack.appendQuantileToState (sb prec quantile : Nat) (st : Stack) : Stack :=
  ⟨st.bulk, ((st.state <<< prec) % 2 ^ sb) ||| quantile⟩

/-- Auryn state: the supply and waste ANS stacks. -/
structure Auryn where
  supply : Stack
  waste : Stack
deriving DecidableEq, Repr

/-- One `encode_symbol` call of the Auryn, mirroring src/auryn.rs: on an
impossible symbol the error carries the untouched coder; otherwise move the
remainder from waste to supply. -/
def Auryn.encodeSymbol (wb sb prec : Nat) (m : Model) (s : Nat) (a : Auryn) :
    Except (EncoderFrontendError × Auryn) Auryn :=
  match m.lcp s with
  | none => .error (.impossibleSymbol, a)
  | some (c, p) =>
    let waste1 :=
      if a.waste.state < (p <<< (sb - wb - prec)) % 2 ^ sb then
        a.waste.refillStateIfPossible wb sb
      else a.waste
    let rw := waste1.decodeRemainderOffState p
    let supply1 :=
      if a.supply.state >>> (sb - prec) ≠ 0 then a.supply.flushState wb
      else a.supply
    .ok ⟨supply1.appendQuantileToState sb prec (c + rw.1), rw.2⟩

-- ==================== Huffman codec (src/symbol/huffman.rs) ====================

/-- Lexicographic order on `(weight, index)` pairs, the order of the
source's binary heap entries. -/
def hpLe (a b : Nat × Nat) : Bool :=
  a.1 < b.1 || (a.1 = b.1 && a.2 ≤ b.2)

/-- Pop the minimal `(weight, index)` pair, as `BinaryHeap::pop` on
`Reverse`-wrapped entries does; deterministic because entries have distinct
indices. -/
def popMin (l : List (Nat × Nat)) : Option ((Nat × Nat) × List (Nat × Nat)) :=
  match l with
  | [] => none
  | x :: xs =>
    let mn := xs.foldl (fun a b => if hpLe a b then a else b) x
    some (mn, l.erase mn)

/-- Loop of `EncoderHuffmanTree::from_probabilities`: repeatedly pop the two
least entries, record parent pointers, and push the combined node. -/
def huffLoopEnc : Nat → List (Nat × Nat) → List Nat → Nat → List Nat
  | 0, _, enc, _ => enc
  | fuel + 1, heap, enc, next =>
    match popMin heap with
    | none => enc
    | some ((p0, i0), h1) =>
      match popMin h1 with
      | none => enc
      | some ((p1, i1), h2) =>
        huffLoopEnc fuel ((p0 + p1, next) :: h2)
          ((enc.set i0 (next <<< 1)).set i1 ((next <<< 1) ||| 1)) (next + 1)

/-- Loop of `DecoderHuffmanTree::from_probabilities`: like the encoder loop
but recording `[left, right]` child pairs of the internal nodes. -/
def huffLoopDec : Nat → List (Nat × Nat) → List (Nat × Nat) → Nat → List (Nat × Nat)
  | 0, _, dec, _ => dec
  | fuel + 1, heap, dec, next =>
    match popMin heap with
    | none => dec
    | some ((p0, i0), h1) =>
      match popMin h1 with
      | none => dec
      | some ((p1, i1), h2) =>
        huffLoopDec fuel ((p0 + p1, next) :: h2) (dec ++ [(i0, i1)]) (next + 1)

/-- Initial heap of `(weight, index)` pairs from a weight vector. -/
def initHeap (w : List Nat) : List (Nat × Nat) :=
  w.enum.map (fun t => (t.2, t.1))

/-- The encoder Huffman tree as its flat parent-pointer array. -/
def EncoderHuffmanTree.fromProbabilities (w : List Nat) : List Nat :=
  huffLoopEnc w.length (initHeap w) (List.replicate (2 * w.length - 1) 0) w.length

/-- The decoder Huffman tree as its array of internal `[left, right]`
nodes. -/
def DecoderHuffmanTree.fromProbabilities (w : List Nat) : List (Nat × Nat) :=
  huffLoopDec w.length (initHeap w) [] w.length

/-- Walk of `EncoderHuffmanTree::encode_symbol`: follow parent pointers to
the root, collecting side bits; the accumulator yields the codeword from the
root down. Fuel-limited; `none` when the fuel runs out before the root. -/
def encodeWalk (enc : List Nat) : Nat → Nat → List Bool → Option (List Bool)
  | 0, idx, acc => if enc.getD idx 0 = 0 then some acc else none
  | fuel + 1, idx, acc =>
    let nd := enc.getD idx 0
    if nd = 0 then some acc
    else encodeWalk enc fuel (nd >>> 1) ((nd &&& 1 != 0) :: acc)

/-- The source's `encode_symbol` on an encoder tree: reject out-of-range
symbols, then walk to the root. -/
def EncoderHuffmanTree.encodeSymbol (enc : List Nat) (s : Nat) :
    Option (List Bool) :=
  if s > enc.length / 2 then none
  else encodeWalk enc enc.length s []

/-- Walk of `DecoderHuffmanTree::decode_symbol` from a given node: follow
child pointers, consuming one bit per internal node, until reaching a leaf;
returns the symbol and the unconsumed bits. -/
def decodeFrom (dec : List (Nat × Nat)) (n : Nat) : Nat → List Bool →
    Option (Nat × List Bool)
  | idx, [] => if idx < n then some (idx, []) else none
  | idx, b :: rest =>
    if idx < n then some (idx, b :: rest)
    else
      decodeFrom dec n
        (if b then (dec.getD (idx - n) (0, 0)).2 else (dec.getD (idx - n) (0, 0)).1)
        rest

/-- The source's `decode_symbol` on a decoder tree: walk from the root. -/
def DecoderHuffmanTree.decodeSymbol (dec : List (Nat × Nat)) (bits : List Bool) :
    Option (Nat × List Bool) :=
  decodeFrom dec (dec.length + 1) (2 * dec.length) bits

/-- Chain of parent-pointer steps in an encoder tree from node `i` up to
node `r`, with the collected side bits listed from `r` down to `i`. -/
inductive PathTo (enc : List Nat) : Nat → Nat → List Bool → Prop where
  | nil (i : Nat) : PathTo enc i i []
  | cons (i r : Nat) (code : List Bool) :
      enc.getD i 0 ≠ 0 → PathTo enc (enc.getD i 0 >>> 1) r code →
      PathTo enc i r (code ++ [enc.getD i 0 &&& 1 != 0])

/-- Joint loop invariant of the two `from_probabilities` loops run on the
same heap: array bounds, heap-index freshness, parent monotonicity of the
encoder entries, child bounds of the decoder entries, and per-symbol
round-trip correctness of the partially built trees. -/
def HuffInv (n : Nat) (h : List (Nat × Nat)) (e : List Nat)
    (d : List (Nat × Nat)) : Prop :=
  e.length = 2 * n - 1 ∧
  h.length + d.length = n ∧
  1 ≤ h.length ∧
  (∀ pi ∈ h, pi.2 < n + d.length) ∧
  (h.map Prod.snd).Nodup ∧
  (∀ pi ∈ h, e.getD pi.2 0 = 0) ∧
  (∀ j, n + d.length ≤ j → e.getD j 0 = 0) ∧
  (∀ i, e.getD i 0 ≠ 0 →
    i < e.getD i 0 >>> 1 ∧ n ≤ e.getD i 0 >>> 1 ∧
      e.getD i 0 >>> 1 < n + d.length) ∧
  (∀ k, k < d.length →
    (d.getD k (0, 0)).1 < n + k ∧ (d.getD k (0, 0)).2 < n + k) ∧
  (h.length = 1 → ∀ pi ∈ h, pi.2 = n + d.length - 1) ∧
  (∀ s, s < n → ∃ r code, (∃ p, (p, r) ∈ h) ∧ PathTo e s r code ∧
    ∀ dx rest, d <+: dx → decodeFrom dx n r (code ++ rest) = some (s, rest))

-- =========================== General lemmas ===========================

theorem lorTwoPow (a b k : Nat) (hb : b < 2 ^ k) :
    (2 ^ k * a) ||| b = 2 ^ k * a + b := by
  apply Nat.eq_of_testBit_eq
  intro j
  rw [Nat.testBit_lor, Nat.testBit_mul_pow_two_add a hb j]
  rcases lt_or_le j k with hj | hj
  · have h0 : (2 ^ k * a).testBit j = false := by
      have := Nat.testBit_mul_pow_two_add a (Nat.two_pow_pos k) j
      simpa [hj] using this
    simp [h0, hj]
  · have hbf : b.testBit j = false :=
      Nat.testBit_lt_two_pow
        (lt_of_lt_of_le hb (Nat.pow_le_pow_right (by norm_num) hj))
    have h0 : (2 ^ k * a).testBit j = a.testBit (j - k) := by
      have := Nat.testBit_mul_pow_two_add a (Nat.two_pow_pos k) j
      simpa [Nat.not_lt.mpr hj] using this
    simp [h0, hbf, Nat.not_lt.mpr hj]

theorem lorTwoPowMul (a b k : Nat) (hb : b < 2 ^ k) :
    (a * 2 ^ k) ||| b = a * 2 ^ k + b := by
  rw [Nat.mul_comm]
  exact lorTwoPow a b k hb

theorem vecPop_nil : vecPop [] = none := rfl

theorem vecPop_append (l : List Nat) (x : Nat) :
    vecPop (l ++ [x]) = some (x, l) := by
  simp [vecPop]

theorem vecPop_eq_some {l l' : List Nat} {w : Nat}
    (h : vecPop l = some (w, l')) : l = l' ++ [w] := by
  unfold vecPop at h
  rcases hl : l.getLast? with _ | w0
  · rw [hl] at h; exact absurd h (by simp)
  · rw [hl] at h
    simp at h
    rcases h with ⟨rfl, rfl⟩
    exact (List.dropLast_append_getLast? w0 hl).symm

theorem vecPop_none {l : List Nat} (h : vecPop l = none) : l = [] := by
  unfold vecPop at h
  rcases hl : l.getLast? with _ | w0
  · exact List.getLast?_eq_none_iff.mp hl
  · rw [hl] at h; exact absurd h (by simp)

-- =========================== C8: Cursor backend ===========================

/-- C8: for every `Cursor` with `pos ≤ len(buf)`: a stack read decrements
`pos` and returns `buf[pos]`, returning `none` exactly when `pos = 0`; a
queue read returns `buf[pos]` then increments `pos`, returning `none`
exactly when `pos = len`; a write stores the word at `buf[pos]` and
increments `pos`, erroring with `OutOfSpace` exactly when `pos = len` and
leaving the cursor unchanged; `seek p` succeeds exactly when `p ≤ len`,
setting `pos` to `p`; and all four operations preserve `pos ≤ len`. -/
theorem cursor_ops_spec (cur : Cursor) (w p : Nat)
    (h : cur.pos ≤ cur.buf.length) :
    ((cur.readStack.1 = none ↔ cur.pos = 0) ∧
      (0 < cur.pos →
        cur.readStack =
          (some (cur.buf.getD (cur.pos - 1) 0), ⟨cur.buf, cur.pos - 1⟩)) ∧
      cur.readStack.2.pos ≤ cur.readStack.2.buf.length) ∧
    ((cur.readQueue.1 = none ↔ cur.pos = cur.buf.length) ∧
      (cur.pos < cur.buf.length →
        cur.readQueue =
          (some (cur.buf.getD cur.pos 0), ⟨cur.buf, cur.pos + 1⟩)) ∧
      cur.readQueue.2.pos ≤ cur.readQueue.2.buf.length) ∧
    ((cur.pos = cur.buf.length → cur.write w = .error (.outOfSpace, cur)) ∧
      (cur.pos < cur.buf.length →
        cur.write w = .ok ⟨cur.buf.set cur.pos w, cur.pos + 1⟩) ∧
      (∀ c', cur.write w = .ok c' → c'.pos ≤ c'.buf.length)) ∧
    (((∃ c', cur.seek p = .ok c') ↔ p ≤ cur.buf.length) ∧
      (p ≤ cur.buf.length → cur.seek p = .ok ⟨cur.buf, p⟩) ∧
      (∀ c', cur.seek p = .ok c' → c'.pos ≤ c'.buf.length)) := by
  refine ⟨⟨?_, ?_, ?_⟩, ⟨?_, ?_, ?_⟩, ⟨?_, ?_, ?_⟩, ⟨?_, ?_, ?_⟩⟩
  · unfold Cursor.readStack
    split <;> simp_all
  · intro hp
    unfold Cursor.readStack
    simp [Nat.ne_of_gt hp]
  · unfold Cursor.readStack
    split <;> simp <;> omega
  · unfold Cursor.readQueue
    rcases hg : cur.buf.get? cur.pos with _ | v
    · simp only [hg]
      simp [List.get?_eq_none] at hg
      simp
      omega
    · simp only [hg]
      have hlt : cur.pos < cur.buf.length := by
        by_contra hc
        rw [List.get?_eq_none.mpr (by omega)] at hg
        exact absurd hg (by simp)
      simp
      omega
  · intro hp
    unfold Cursor.readQueue
    have : cur.buf.get? cur.pos = some (cur.buf.getD cur.pos 0) := by
      rw [List.getD_eq_getElem?_getD]
      rw [List.get?_eq_getElem?]
      rcases hg : cur.buf[cur.pos]? with _ | v
      · simp [List.getElem?_eq_none_iff] at hg; omega
      · simp
    rw [this]
  · unfold Cursor.readQueue
    rcases hg : cur.buf.get? cur.pos with _ | v
    · simpa using h
    · have : cur.pos < cur.buf.length := by
        by_contra hc
        rw [List.get?_eq_none.mpr (by omega)] at hg
        exact absurd hg (by simp)
      simp
      omega
  · intro hp
    unfold Cursor.write
    simp [hp]
  · intro hp
    unfold Cursor.write
    simp [hp]
  · intro c' hc
    unfold Cursor.write at hc
    split at hc
    · simp at hc
      rw [← hc]
      simp
      omega
    · exact absurd hc (by simp)
  · constructor
    · rintro ⟨c', hc⟩
      unfold Cursor.seek at hc
      split at hc
      · exact absurd hc (by simp)
      · omega
    · intro hp
      exact ⟨⟨cur.buf, p⟩, by unfold Cursor.seek; simp; omega⟩
  · intro hp
    unfold Cursor.seek
    simp
    omega
  · intro c' hc
    unfold Cursor.seek at hc
    split at hc
    · exact absurd hc (by simp)
    · simp at hc
      rw [← hc]
      simp
      omega

/-- Witness for C8 at a concrete cursor. -/
theorem cursor_ops_spec_witness :
    (⟨[5, 6], 1⟩ : Cursor).pos ≤ (⟨[5, 6], 1⟩ : Cursor).buf.length ∧
    (⟨[5, 6], 1⟩ : Cursor).readStack = (some 5, ⟨[5, 6], 0⟩) := by
  refine ⟨by decide, ?_⟩
  have := (cursor_ops_spec ⟨[5, 6], 1⟩ 7 1 (by decide)).1.2.1 (by decide)
  simpa using this

-- =========================== C7: empty coders ===========================

theorem readPointAux_empty (wb sb : Nat) (k point : Nat) :
    readPointAux wb sb k ⟨[], 0⟩ point = (point, 0, ⟨[], 0⟩) := by
  rcases k with _ | k
  · rfl
  · rfl

/-- C7: a fresh range encoder reports `is_empty`; `into_compressed` on any
encoder whose `range` is still `State::max_value` writes no words and
returns the bulk as is, in particular an empty buffer for a fresh encoder;
and a range decoder constructed from an empty buffer reports
`maybe_empty`. -/
theorem range_coder_empty_boundary (wb sb : Nat) (e : RangeEncoder)
    (he : e.range = 2 ^ sb - 1) :
    RangeEncoder.isEmpty sb (RangeEncoder.new sb) = true ∧
    RangeEncoder.intoCompressed wb sb e = e.bulk ∧
    RangeEncoder.intoCompressed wb sb (RangeEncoder.new sb) = [] ∧
    RangeDecoder.maybeEmpty wb sb (RangeDecoder.fromCompressed wb sb []) = true := by
  refine ⟨?_, ?_, ?_, ?_⟩
  · simp [RangeEncoder.isEmpty, RangeEncoder.new]
  · simp [RangeEncoder.intoCompressed, RangeEncoder.seal, he]
  · simp [RangeEncoder.intoCompressed, RangeEncoder.seal, RangeEncoder.new]
  · have hrp : readPoint wb sb ⟨[], 0⟩ = (0, ⟨[], 0⟩) := by
      unfold readPoint
      rw [readPointAux_empty]
      simp
    simp [RangeDecoder.maybeEmpty, RangeDecoder.fromCompressed, hrp,
      Cursor.exhaustedQueue, Cursor.remainingQueue]

/-- Witness for C7 at `Word = u2`, `State = u4`. -/
theorem range_coder_empty_boundary_witness :
    (⟨[7], 0, 2 ^ 4 - 1, .normal⟩ : RangeEncoder).range = 2 ^ 4 - 1 ∧
    (RangeEncoder.isEmpty 4 (RangeEncoder.new 4) = true ∧
      RangeEncoder.intoCompressed 2 4 ⟨[7], 0, 2 ^ 4 - 1, .normal⟩ = [7] ∧
      RangeEncoder.intoCompressed 2 4 (RangeEncoder.new 4) = [] ∧
      RangeDecoder.maybeEmpty 2 4 (RangeDecoder.fromCompressed 2 4 []) = true) :=
  ⟨by decide, range_coder_empty_boundary 2 4 ⟨[7], 0, 2 ^ 4 - 1, .normal⟩ rfl⟩

-- =========================== C6: ImpossibleSymbol atomicity ===========================

/-- C6: whenever `encode_symbol` is called with a symbol for which the
model reports an error, the range encoder, the chain coder and the Auryn
all return the `ImpossibleSymbol` error with the entire coder state exactly
as it was before the call. -/
theorem impossible_symbol_atomic (wb sb prec : Nat) (m : Model) (sym : Nat)
    (e : RangeEncoder) (cc : ChainCoder) (a : Auryn)
    (hm : m.lcp sym = none) :
    RangeEncoder.encodeSymbol wb sb prec m sym e = .error (.impossibleSymbol, e) ∧
    ChainCoder.encodeSymbol wb sb prec m sym cc = .error (.impossibleSymbol, cc) ∧
    Auryn.encodeSymbol wb sb prec m sym a = .error (.impossibleSymbol, a) := by
  refine ⟨?_, ?_, ?_⟩
  · simp [RangeEncoder.encodeSymbol, hm]
  · simp [ChainCoder.encodeSymbol, hm]
  · simp [Auryn.encodeSymbol, hm]

/-- Witness for C6 with a model that rejects every symbol. -/
theorem impossible_symbol_atomic_witness :
    (Model.mk (fun _ => none) (fun _ => (0, 0, 0))).lcp 3 = none ∧
    (RangeEncoder.encodeSymbol 2 4 2 (Model.mk (fun _ => none) (fun _ => (0, 0, 0))) 3
        ⟨[1], 5, 9, .normal⟩ = .error (.impossibleSymbol, ⟨[1], 5, 9, .normal⟩) ∧
      ChainCoder.encodeSymbol 2 4 2 (Model.mk (fun _ => none) (fun _ => (0, 0, 0))) 3
        ⟨[2], [3], 1, 6⟩ = .error (.impossibleSymbol, ⟨[2], [3], 1, 6⟩) ∧
      Auryn.encodeSymbol 2 4 2 (Model.mk (fun _ => none) (fun _ => (0, 0, 0))) 3
        ⟨⟨[4], 8⟩, ⟨[], 2⟩⟩ = .error (.impossibleSymbol, ⟨⟨[4], 8⟩, ⟨[], 2⟩⟩)) :=
  ⟨rfl, impossible_symbol_atomic 2 4 2 (Model.mk (fun _ => none) (fun _ => (0, 0, 0))) 3
    ⟨[1], 5, 9, .normal⟩ ⟨[2], [3], 1, 6⟩ ⟨⟨[4], 8⟩, ⟨[], 2⟩⟩ rfl⟩

-- =========================== C2: carry resolution ===========================

theorem encodeSymbol_eq_of_lcp (wb sb prec : Nat) (m : Model) (sym : Nat)
    (e : RangeEncoder) (c p : Nat) (hm : m.lcp sym = some (c, p)) :
    RangeEncoder.encodeSymbol wb sb prec m sym e =
      (let scale := e.range >>> prec
       let range1 := (scale * p) % 2 ^ sb
       let newLower := (e.lower + scale * c) % 2 ^ sb
       let bs := resolveInversion wb sb newLower e.lower range1 e.bulk e.situation
       let st := encRenormStep wb sb (newLower, range1, bs.1, bs.2)
       .ok ⟨st.2.2.1, st.1, st.2.1, st.2.2.2⟩) := by
  unfold RangeEncoder.encodeSymbol
  rw [hm]

theorem encRenormStep_bulk_extends (wb sb : Nat)
    (st : Nat × Nat × List Nat × EncoderSituation) :
    st.2.2.1 <+: (encRenormStep wb sb st).2.2.1 := by
  rcases st with ⟨lower, range, bulk, sit⟩
  unfold encRenormStep encRenormBody
  rcases sit with _ | ⟨n, w0⟩ <;> simp only [] <;> split <;> (try split) <;> simp

/-- C2: whenever `encode_symbol` runs while the encoder is in situation
`Inverted(n, w0)` and the new interval no longer wraps the top of the state
(`new_lower + range`, wrapping, is greater than `new_lower`), the
carry-resolution step emits exactly `n` words: `w0 + 1` followed by `n - 1`
zero words if `new_lower < lower` (a carry occurred), otherwise `w0`
followed by `n - 1` all-ones words; the situation becomes `Normal`; and the
call succeeds with those words persisted at that position of the backend. -/
theorem range_encoder_carry_resolution (wb sb prec : Nat) (m : Model)
    (sym : Nat) (e : RangeEncoder) (n w0 c p scale range1 newLower : Nat)
    (hsit : e.situation = .inverted n w0)
    (hm : m.lcp sym = some (c, p))
    (hscale : scale = e.range >>> prec)
    (hrange1 : range1 = (scale * p) % 2 ^ sb)
    (hnew : newLower = (e.lower + scale * c) % 2 ^ sb)
    (hres : (newLower + range1) % 2 ^ sb > newLower) :
    resolveInversion wb sb newLower e.lower range1 e.bulk e.situation =
      (e.bulk ++
        (if newLower < e.lower then (w0 + 1) % 2 ^ wb else w0) ::
          List.replicate (n - 1)
            (if newLower < e.lower then 0 else 2 ^ wb - 1),
        .normal) ∧
    ∃ e', RangeEncoder.encodeSymbol wb sb prec m sym e = .ok e' ∧
      (e.bulk ++
          (if newLower < e.lower then (w0 + 1) % 2 ^ wb else w0) ::
            List.replicate (n - 1)
              (if newLower < e.lower then 0 else 2 ^ wb - 1)) <+: e'.bulk := by
  subst hscale
  subst hrange1
  subst hnew
  have h1 : resolveInversion wb sb ((e.lower + e.range >>> prec * c) % 2 ^ sb)
      e.lower (e.range >>> prec * p % 2 ^ sb) e.bulk e.situation =
      (e.bulk ++
        (if (e.lower + e.range >>> prec * c) % 2 ^ sb < e.lower then
            (w0 + 1) % 2 ^ wb
          else w0) ::
          List.replicate (n - 1)
            (if (e.lower + e.range >>> prec * c) % 2 ^ sb < e.lower then 0
              else 2 ^ wb - 1),
        .normal) := by
    rw [hsit]
    simp only [resolveInversion]
    rw [if_pos hres]
    split <;> rfl
  refine ⟨h1, ?_⟩
  rw [encodeSymbol_eq_of_lcp wb sb prec m sym e c p hm]
  simp only [h1]
  refine ⟨_, rfl, ?_⟩
  exact encRenormStep_bulk_extends wb sb
    ((e.lower + e.range >>> prec * c) % 2 ^ sb,
      e.range >>> prec * p % 2 ^ sb,
      e.bulk ++
        (if (e.lower + e.range >>> prec * c) % 2 ^ sb < e.lower then
            (w0 + 1) % 2 ^ wb
          else w0) ::
          List.replicate (n - 1)
            (if (e.lower + e.range >>> prec * c) % 2 ^ sb < e.lower then 0
              else 2 ^ wb - 1),
      .normal)

/-- Witness for C2: an encoder in situation `Inverted(2, 1)` resolving
without carry. -/
theorem range_encoder_carry_resolution_witness :
    ((⟨[], 0, 2 ^ 4 - 1, .inverted 2 1⟩ : RangeEncoder).situation =
        .inverted 2 1 ∧
      (Model.mk (fun _ => some (1, 2)) (fun _ => (0, 0, 0))).lcp 0 =
        some (1, 2) ∧
      ((3 : Nat) = (2 ^ 4 - 1 : Nat) >>> 2) ∧
      ((6 : Nat) = (3 * 2) % 2 ^ 4) ∧
      ((3 : Nat) = (0 + 3 * 1) % 2 ^ 4) ∧
      ((3 + 6) % 2 ^ 4 > 3)) ∧
    (resolveInversion 2 4 3 0 6 [] (.inverted 2 1) =
      ([] ++
        (if (3 : Nat) < 0 then (1 + 1) % 2 ^ 2 else 1) ::
          List.replicate (2 - 1) (if (3 : Nat) < 0 then 0 else 2 ^ 2 - 1),
        .normal) ∧
    ∃ e', RangeEncoder.encodeSymbol 2 4 2
        (Model.mk (fun _ => some (1, 2)) (fun _ => (0, 0, 0))) 0
        ⟨[], 0, 2 ^ 4 - 1, .inverted 2 1⟩ = .ok e' ∧
      ([] ++
          (if (3 : Nat) < 0 then (1 + 1) % 2 ^ 2 else 1) ::
            List.replicate (2 - 1)
              (if (3 : Nat) < 0 then 0 else 2 ^ 2 - 1)) <+: e'.bulk) := by
  refine ⟨by decide, ?_⟩
  have h := range_encoder_carry_resolution 2 4 2
    (Model.mk (fun _ => some (1, 2)) (fun _ => (0, 0, 0))) 0
    ⟨[], 0, 2 ^ 4 - 1, .inverted 2 1⟩ 2 1 1 2 3 6 3
    rfl rfl (by decide) (by decide) (by decide) (by decide)
  exact h

-- =========================== C4: decoder error behavior ===========================

/-- C4: `decode_symbol` of the range decoder fails with `InvalidData`
exactly when the computed quantile is at least `2 ^ PRECISION`; in every
other case it returns a symbol and never fails due to an exhausted backend:
when the backend has no next word during renormalization, the decoder
shifts a zero word into `point`. -/
theorem range_decoder_error_behavior (wb sb prec : Nat) (m : Model)
    (d : RangeDecoder) (scale quantile : Nat)
    (hscale : scale = d.range >>> prec)
    (hq : quantile = (d.point + (2 ^ sb - d.lower)) % 2 ^ sb / scale) :
    (RangeDecoder.decodeSymbol wb sb prec m d = .error .invalidData ↔
      2 ^ prec ≤ quantile) ∧
    (quantile < 2 ^ prec →
      ∃ d', RangeDecoder.decodeSymbol wb sb prec m d =
          .ok ((m.qf quantile).1, d') ∧
        ((scale * (m.qf quantile).2.2) % 2 ^ sb < 2 ^ (sb - wb) ∧
            d.bulk.buf.length ≤ d.bulk.pos →
          d'.point = (d.point <<< wb) % 2 ^ sb)) := by
  subst hscale
  subst hq
  constructor
  · simp only [RangeDecoder.decodeSymbol]
    split
    · simp_all
    · constructor
      · intro hcontra
        exact absurd hcontra (by simp)
      · intro hge
        omega
  · intro hlt
    simp only [RangeDecoder.decodeSymbol]
    rw [if_neg (by omega)]
    refine ⟨_, rfl, ?_⟩
    intro ⟨hrenorm, hexh⟩
    unfold decRenormStep
    rw [if_pos hrenorm]
    unfold decRenormBody
    have hread : Cursor.readQueue d.bulk = (none, d.bulk) := by
      unfold Cursor.readQueue
      rw [List.get?_eq_none.mpr hexh]
    rw [hread]

/-- Witness for C4: a decoder whose quantile is in range and whose backend
is exhausted. -/
theorem range_decoder_error_behavior_witness :
    ((3 : Nat) = (⟨⟨[], 0⟩, 0, 2 ^ 4 - 1, 5⟩ : RangeDecoder).range >>> 2 ∧
      (1 : Nat) =
        ((⟨⟨[], 0⟩, 0, 2 ^ 4 - 1, 5⟩ : RangeDecoder).point +
          (2 ^ 4 - (⟨⟨[], 0⟩, 0, 2 ^ 4 - 1, 5⟩ : RangeDecoder).lower)) % 2 ^ 4 / 3) ∧
    ((RangeDecoder.decodeSymbol 2 4 2
        (Model.mk (fun _ => some (0, 2)) (fun _ => (7, 0, 1))) ⟨⟨[], 0⟩, 0, 2 ^ 4 - 1, 5⟩ =
          .error .invalidData ↔ 2 ^ 2 ≤ 1) ∧
      ((1 : Nat) < 2 ^ 2 →
        ∃ d', RangeDecoder.decodeSymbol 2 4 2
            (Model.mk (fun _ => some (0, 2)) (fun _ => (7, 0, 1))) ⟨⟨[], 0⟩, 0, 2 ^ 4 - 1, 5⟩ =
            .ok (7, d') ∧
          ((3 * 1) % 2 ^ 4 < 2 ^ (4 - 2) ∧
              (⟨[], 0⟩ : Cursor).buf.length ≤ (⟨[], 0⟩ : Cursor).pos →
            d'.point = ((5 : Nat) <<< 2) % 2 ^ 4))) := by
  refine ⟨by decide, ?_⟩
  have h := range_decoder_error_behavior 2 4 2
    (Model.mk (fun _ => some (0, 2)) (fun _ => (7, 0, 1)))
    ⟨⟨[], 0⟩, 0, 2 ^ 4 - 1, 5⟩ 3 1 (by decide) (by decide)
  exact h

-- =========================== C9: single-shift renormalization ===========================

theorem encRenormLoopSpec_stop (wb sb fuel : Nat)
    (st : Nat × Nat × List Nat × EncoderSituation)
    (h : ¬ st.2.1 < 2 ^ (sb - wb)) :
    encRenormLoopSpec wb sb fuel st = st := by
  cases fuel <;> simp [encRenormLoopSpec, h]

theorem decRenormLoopSpec_stop (wb sb fuel : Nat)
    (st : Nat × Nat × Nat × Cursor)
    (h : ¬ st.2.1 < 2 ^ (sb - wb)) :
    decRenormLoopSpec wb sb fuel st = st := by
  cases fuel <;> simp [decRenormLoopSpec, h]

theorem encRenormBody_range (wb sb : Nat)
    (st : Nat × Nat × List Nat × EncoderSituation) :
    (encRenormBody wb sb st).2.1 = (st.2.1 <<< wb) % 2 ^ sb := by
  rcases st with ⟨lower, range, bulk, sit⟩
  rcases sit with _ | ⟨n, w0⟩ <;>
    simp only [encRenormBody] <;> (try split) <;> rfl

theorem decRenormBody_range (wb sb : Nat) (st : Nat × Nat × Nat × Cursor) :
    (decRenormBody wb sb st).2.1 = (st.2.1 <<< wb) % 2 ^ sb := by
  rcases st with ⟨lower, range, point, cur⟩
  simp only [decRenormBody]
  rcases h : cur.readQueue with ⟨_ | w, cur1⟩ <;> simp

/-- C9: under the entry invariant `range ≥ 2 ^ (State.BITS - Word.BITS)`,
`PRECISION ≤ Word.BITS` and a nonzero `PRECISION`-bit probability, the range
after the multiplication step is at least `2 ^ (State.BITS - 2 Word.BITS)`;
hence the code's single conditional word-shift is extensionally equal to the
spec's while-loop renormalization (for any amount of fuel) and restores the
invariant in at most one iteration, in the encoder and in the decoder. -/
theorem renorm_single_shift_refinement (wb sb prec : Nat)
    (hwb : 1 ≤ wb) (hsb : 2 * wb ≤ sb) (hprec : prec ≤ wb)
    (range0 p range1 lower point : Nat) (bulk : List Nat)
    (sit : EncoderSituation) (cur : Cursor)
    (hinv : 2 ^ (sb - wb) ≤ range0) (hr0 : range0 < 2 ^ sb)
    (hp : 0 < p) (hple : p ≤ 2 ^ prec)
    (hrange1 : range1 = ((range0 >>> prec) * p) % 2 ^ sb) :
    2 ^ (sb - 2 * wb) ≤ range1 ∧
    (∀ fuel, 1 ≤ fuel →
      encRenormLoopSpec wb sb fuel (lower, range1, bulk, sit) =
        encRenormStep wb sb (lower, range1, bulk, sit)) ∧
    2 ^ (sb - wb) ≤ (encRenormStep wb sb (lower, range1, bulk, sit)).2.1 ∧
    (∀ fuel, 1 ≤ fuel →
      decRenormLoopSpec wb sb fuel (lower, range1, point, cur) =
        decRenormStep wb sb (lower, range1, point, cur)) ∧
    2 ^ (sb - wb) ≤ (decRenormStep wb sb (lower, range1, point, cur)).2.1 := by
  have hwbsb : wb ≤ sb := by omega
  have hmul : (range0 / 2 ^ prec) * p ≤ range0 := by
    calc (range0 / 2 ^ prec) * p ≤ (range0 / 2 ^ prec) * 2 ^ prec :=
          Nat.mul_le_mul_left _ hple
      _ ≤ range0 := Nat.div_mul_le_self _ _
  have hA : range1 = (range0 / 2 ^ prec) * p := by
    rw [hrange1, Nat.shiftRight_eq_div_pow]
    exact Nat.mod_eq_of_lt (lt_of_le_of_lt hmul hr0)
  have hB : 2 ^ (sb - 2 * wb) ≤ range1 := by
    rw [hA]
    calc 2 ^ (sb - 2 * wb) = 2 ^ (sb - wb) / 2 ^ wb := by
          rw [Nat.pow_div (by omega) (by norm_num)]
          congr 1
          omega
      _ ≤ range0 / 2 ^ wb := Nat.div_le_div_right hinv
      _ ≤ range0 / 2 ^ prec :=
          Nat.div_le_div_left (Nat.pow_le_pow_right (by norm_num) hprec)
            (Nat.two_pow_pos prec)
      _ ≤ (range0 / 2 ^ prec) * p := Nat.le_mul_of_pos_right _ hp
  have hshift : range1 < 2 ^ (sb - wb) →
      (range1 <<< wb) % 2 ^ sb = range1 * 2 ^ wb ∧
      2 ^ (sb - wb) ≤ range1 * 2 ^ wb := by
    intro hlt
    have hpow : (2 : Nat) ^ (sb - wb) * 2 ^ wb = 2 ^ sb := by
      rw [← pow_add]
      congr 1
      omega
    have hpow2 : (2 : Nat) ^ (sb - 2 * wb) * 2 ^ wb = 2 ^ (sb - wb) := by
      rw [← pow_add]
      congr 1
      omega
    constructor
    · rw [Nat.shiftLeft_eq]
      apply Nat.mod_eq_of_lt
      calc range1 * 2 ^ wb < 2 ^ (sb - wb) * 2 ^ wb :=
            (Nat.mul_lt_mul_right (Nat.two_pow_pos wb)).mpr hlt
        _ = 2 ^ sb := hpow
    · calc 2 ^ (sb - wb) = 2 ^ (sb - 2 * wb) * 2 ^ wb := hpow2.symm
        _ ≤ range1 * 2 ^ wb := Nat.mul_le_mul_right _ hB
  refine ⟨hB, ?_, ?_, ?_, ?_⟩
  · intro fuel hfuel
    rcases fuel with _ | f
    · omega
    · by_cases hlt : range1 < 2 ^ (sb - wb)
      · simp only [encRenormLoopSpec, encRenormStep]
        rw [if_pos hlt, if_pos hlt]
        apply encRenormLoopSpec_stop
        rw [encRenormBody_range]
        simp only []
        rw [(hshift hlt).1]
        exact not_lt.mpr (hshift hlt).2
      · simp only [encRenormLoopSpec, encRenormStep]
        rw [if_neg hlt, if_neg hlt]
  · unfold encRenormStep
    by_cases hlt : range1 < 2 ^ (sb - wb)
    · rw [if_pos hlt, encRenormBody_range]
      simp only []
      rw [(hshift hlt).1]
      exact (hshift hlt).2
    · rw [if_neg hlt]
      exact not_lt.mp hlt
  · intro fuel hfuel
    rcases fuel with _ | f
    · omega
    · by_cases hlt : range1 < 2 ^ (sb - wb)
      · simp only [decRenormLoopSpec, decRenormStep]
        rw [if_pos hlt, if_pos hlt]
        apply decRenormLoopSpec_stop
        rw [decRenormBody_range]
        simp only []
        rw [(hshift hlt).1]
        exact not_lt.mpr (hshift hlt).2
      · simp only [decRenormLoopSpec, decRenormStep]
        rw [if_neg hlt, if_neg hlt]
  · unfold decRenormStep
    by_cases hlt : range1 < 2 ^ (sb - wb)
    · rw [if_pos hlt, decRenormBody_range]
      simp only []
      rw [(hshift hlt).1]
      exact (hshift hlt).2
    · rw [if_neg hlt]
      exact not_lt.mp hlt

/-- Witness for C9 at `Word = u2`, `State = u4`, `PRECISION = 2`. -/
theorem renorm_single_shift_refinement_witness :
    (1 ≤ 2 ∧ 2 * 2 ≤ 4 ∧ 2 ≤ 2 ∧ (2 : Nat) ^ (4 - 2) ≤ 8 ∧ (8 : Nat) < 2 ^ 4 ∧
      (0 : Nat) < 1 ∧ (1 : Nat) ≤ 2 ^ 2 ∧ (2 : Nat) = ((8 : Nat) >>> 2 * 1) % 2 ^ 4) ∧
    (2 ^ (4 - 2 * 2) ≤ 2 ∧
      (∀ fuel, 1 ≤ fuel →
        encRenormLoopSpec 2 4 fuel (3, 2, [], .normal) =
          encRenormStep 2 4 (3, 2, [], .normal)) ∧
      2 ^ (4 - 2) ≤ (encRenormStep 2 4 (3, 2, [], .normal)).2.1 ∧
      (∀ fuel, 1 ≤ fuel →
        decRenormLoopSpec 2 4 fuel (3, 2, 9, ⟨[1], 0⟩) =
          decRenormStep 2 4 (3, 2, 9, ⟨[1], 0⟩)) ∧
      2 ^ (4 - 2) ≤ (decRenormStep 2 4 (3, 2, 9, ⟨[1], 0⟩)).2.1) := by
  refine ⟨by decide, ?_⟩
  exact renorm_single_shift_refinement 2 4 2 (by decide) (by decide) (by decide)
    8 1 2 3 9 [] .normal ⟨[1], 0⟩ (by decide) (by decide) (by decide) (by decide)
    (by decide)

-- =========================== C3: state invariants ===========================

theorem intEmod_sub_right (N x y : ℤ) : (x - y % N) % N = (x - y) % N := by
  rw [Int.sub_emod, Int.emod_emod_of_dvd y dvd_rfl, ← Int.sub_emod]

theorem intEmod_add_cancel (N x : ℤ) : (x + N) % N = x % N := by
  have h : x + N = x + N * 1 := by ring
  rw [h, Int.add_mul_emod_self_left]

theorem wrapSub_eq (N a b v : Nat) (hN : 0 < N) (ha : a < N) (hv : v < N)
    (h : ((a : ℤ) - b) % (N : ℤ) = ((v : ℤ)) % N) :
    (a + (N - b % N)) % N = v := by
  have hbm : b % N < N := Nat.mod_lt _ hN
  zify [le_of_lt hbm]
  have e1 : (a : ℤ) + ((N : ℤ) - (b : ℤ) % N) = ((a : ℤ) - (b : ℤ) % N) + N := by
    ring
  rw [e1, intEmod_add_cancel, intEmod_sub_right, h]
  exact Int.emod_eq_of_lt (by positivity) (by exact_mod_cast hv)

theorem castWrapSub (N point lower : Nat) (hlo : lower ≤ N) :
    (((point + (N - lower)) % N : Nat) : ℤ) =
      ((point : ℤ) - lower) % N := by
  push_cast [hlo]
  have e1 : (point : ℤ) + ((N : ℤ) - lower) = ((point : ℤ) - lower) + N := by
    ring
  rw [e1, intEmod_add_cancel]

theorem decode_wrap_sub (N point lower k D : Nat) (hN : 0 < N)
    (hpt : point < N) (hlo : lower < N)
    (hD : D = (point + (N - lower)) % N) (hk : k ≤ D) :
    (point + (N - (lower + k) % N)) % N = D - k := by
  have hDlt : D < N := hD ▸ Nat.mod_lt _ hN
  apply wrapSub_eq N point (lower + k) (D - k) hN hpt (by omega)
  rw [Nat.cast_sub hk]
  have hcast : ((D : Nat) : ℤ) = ((point : ℤ) - lower) % N := by
    rw [hD]
    exact castWrapSub N point lower (le_of_lt hlo)
  rw [hcast]
  push_cast
  rw [Int.sub_emod (((point : ℤ) - lower) % N) _,
    Int.emod_emod_of_dvd _ dvd_rfl, ← Int.sub_emod]
  congr 1
  ring

theorem shift_low_bits (wb sb x : Nat) (hwb : wb ≤ sb) :
    (x <<< wb) % 2 ^ sb = (x % 2 ^ (sb - wb)) * 2 ^ wb := by
  rw [Nat.shiftLeft_eq]
  have h : (2 : Nat) ^ sb = 2 ^ (sb - wb) * 2 ^ wb := by
    rw [← pow_add]
    congr 1
    omega
  rw [h, Nat.mul_mod_mul_right]

theorem renorm_wrap_sub (wb sb point lower D w : Nat)
    (hwb : wb ≤ sb)
    (hpt : point < 2 ^ sb) (hlo : lower < 2 ^ sb)
    (hD : D = (point + (2 ^ sb - lower)) % 2 ^ sb)
    (hDsmall : D < 2 ^ (sb - wb)) (hw : w < 2 ^ wb) :
    (((point <<< wb) % 2 ^ sb + w) + (2 ^ sb - (lower <<< wb) % 2 ^ sb)) %
      2 ^ sb = D * 2 ^ wb + w := by
  have hN : (0 : Nat) < 2 ^ sb := Nat.two_pow_pos sb
  have hpow : (2 : Nat) ^ (sb - wb) * 2 ^ wb = 2 ^ sb := by
    rw [← pow_add]
    congr 1
    omega
  have hv : D * 2 ^ wb + w < 2 ^ sb := by
    have h0 : (D + 1) * 2 ^ wb = D * 2 ^ wb + 2 ^ wb := by ring
    have h2 : (D + 1) * 2 ^ wb ≤ 2 ^ (sb - wb) * 2 ^ wb :=
      Nat.mul_le_mul_right _ (by omega)
    omega
  have ha : (point <<< wb) % 2 ^ sb + w < 2 ^ sb := by
    rw [shift_low_bits wb sb point hwb]
    have hpm : point % 2 ^ (sb - wb) < 2 ^ (sb - wb) :=
      Nat.mod_lt _ (Nat.two_pow_pos _)
    have h0 : (point % 2 ^ (sb - wb) + 1) * 2 ^ wb =
        point % 2 ^ (sb - wb) * 2 ^ wb + 2 ^ wb := by ring
    have h2 : (point % 2 ^ (sb - wb) + 1) * 2 ^ wb ≤ 2 ^ (sb - wb) * 2 ^ wb :=
      Nat.mul_le_mul_right _ (by omega)
    omega
  apply wrapSub_eq (2 ^ sb) _ _ _ hN ha hv
  have hDcast : ((D : Nat) : ℤ) = ((point : ℤ) - lower) % (2 ^ sb : Nat) := by
    rw [hD]
    exact castWrapSub _ point lower (le_of_lt hlo)
  have hshl : (((point * 2 ^ wb) % 2 ^ sb : Nat) : ℤ) ≡
      (point : ℤ) * 2 ^ wb [ZMOD (2 ^ sb : Nat)] := by
    unfold Int.ModEq
    push_cast
    rw [Int.emod_emod_of_dvd _ dvd_rfl]
  have hgoal : ((((point <<< wb) % 2 ^ sb + w : Nat) : ℤ) -
      ((lower <<< wb : Nat) : ℤ)) ≡
      ((D * 2 ^ wb + w : Nat) : ℤ) [ZMOD (2 ^ sb : Nat)] := by
    have hmul : ((point : ℤ) - lower) * 2 ^ wb ≡
        ((D : Nat) : ℤ) * 2 ^ wb [ZMOD (2 ^ sb : Nat)] := by
      apply Int.ModEq.mul_right
      rw [hDcast]
      unfold Int.ModEq
      rw [Int.emod_emod_of_dvd _ dvd_rfl]
    have h1 : (((point <<< wb) % 2 ^ sb + w : Nat) : ℤ) -
        ((lower <<< wb : Nat) : ℤ) ≡
        (point : ℤ) * 2 ^ wb + w - (lower : ℤ) * 2 ^ wb
          [ZMOD (2 ^ sb : Nat)] := by
      push_cast [Nat.shiftLeft_eq]
      exact Int.ModEq.sub (Int.ModEq.add_right _ (by exact_mod_cast hshl))
        (Int.ModEq.refl _)
    have h2 : (point : ℤ) * 2 ^ wb + w - (lower : ℤ) * 2 ^ wb =
        ((point : ℤ) - lower) * 2 ^ wb + w := by ring
    calc (((point <<< wb) % 2 ^ sb + w : Nat) : ℤ) -
        ((lower <<< wb : Nat) : ℤ)
        ≡ ((point : ℤ) - lower) * 2 ^ wb + w [ZMOD (2 ^ sb : Nat)] := by
          rw [← h2]; exact h1
      _ ≡ ((D : Nat) : ℤ) * 2 ^ wb + w [ZMOD (2 ^ sb : Nat)] :=
          Int.ModEq.add_right _ hmul
      _ = ((D * 2 ^ wb + w : Nat) : ℤ) := by push_cast; ring
  exact hgoal

theorem rangeMul_bounds (wb sb prec range0 p : Nat)
    (hwb : 1 ≤ wb) (hsb : 2 * wb ≤ sb) (hprec : prec ≤ wb)
    (hinv : 2 ^ (sb - wb) ≤ range0) (hr0 : range0 < 2 ^ sb)
    (hp : 0 < p) (hple : p ≤ 2 ^ prec) :
    ((range0 >>> prec) * p) % 2 ^ sb = (range0 / 2 ^ prec) * p ∧
    2 ^ (sb - 2 * wb) ≤ (range0 / 2 ^ prec) * p ∧
    (range0 / 2 ^ prec) * p ≤ range0 := by
  have hmul : (range0 / 2 ^ prec) * p ≤ range0 := by
    calc (range0 / 2 ^ prec) * p ≤ (range0 / 2 ^ prec) * 2 ^ prec :=
          Nat.mul_le_mul_left _ hple
      _ ≤ range0 := Nat.div_mul_le_self _ _
  refine ⟨?_, ?_, hmul⟩
  · rw [Nat.shiftRight_eq_div_pow]
    exact Nat.mod_eq_of_lt (lt_of_le_of_lt hmul hr0)
  · calc 2 ^ (sb - 2 * wb) = 2 ^ (sb - wb) / 2 ^ wb := by
          rw [Nat.pow_div (by omega) (by norm_num)]
          congr 1
          omega
      _ ≤ range0 / 2 ^ wb := Nat.div_le_div_right hinv
      _ ≤ range0 / 2 ^ prec :=
          Nat.div_le_div_left (Nat.pow_le_pow_right (by norm_num) hprec)
            (Nat.two_pow_pos prec)
      _ ≤ (range0 / 2 ^ prec) * p := Nat.le_mul_of_pos_right _ hp

theorem shifted_range_bounds (wb sb range1 : Nat)
    (hwb : 1 ≤ wb) (hsb : 2 * wb ≤ sb)
    (hlb : 2 ^ (sb - 2 * wb) ≤ range1) (hsmall : range1 < 2 ^ (sb - wb)) :
    (range1 <<< wb) % 2 ^ sb = range1 * 2 ^ wb ∧
    2 ^ (sb - wb) ≤ range1 * 2 ^ wb ∧ range1 * 2 ^ wb < 2 ^ sb := by
  have hpow : (2 : Nat) ^ (sb - wb) * 2 ^ wb = 2 ^ sb := by
    rw [← pow_add]
    congr 1
    omega
  have hpow2 : (2 : Nat) ^ (sb - 2 * wb) * 2 ^ wb = 2 ^ (sb - wb) := by
    rw [← pow_add]
    congr 1
    omega
  have hlt : range1 * 2 ^ wb < 2 ^ sb := by
    calc range1 * 2 ^ wb < 2 ^ (sb - wb) * 2 ^ wb :=
          (Nat.mul_lt_mul_right (Nat.two_pow_pos wb)).mpr hsmall
      _ = 2 ^ sb := hpow
  refine ⟨?_, ?_, hlt⟩
  · rw [Nat.shiftLeft_eq]
    exact Nat.mod_eq_of_lt hlt
  · calc 2 ^ (sb - wb) = 2 ^ (sb - 2 * wb) * 2 ^ wb := hpow2.symm
      _ ≤ range1 * 2 ^ wb := Nat.mul_le_mul_right _ hlb

theorem encRenormStep_range_eq (wb sb : Nat)
    (st : Nat × Nat × List Nat × EncoderSituation) :
    (encRenormStep wb sb st).2.1 =
      if st.2.1 < 2 ^ (sb - wb) then (st.2.1 <<< wb) % 2 ^ sb else st.2.1 := by
  unfold encRenormStep
  by_cases h : st.2.1 < 2 ^ (sb - wb)
  · rw [if_pos h, if_pos h, encRenormBody_range]
  · rw [if_neg h, if_neg h]

theorem encodeSymbol_inv (wb sb prec : Nat)
    (hwb : 1 ≤ wb) (hsb : 2 * wb ≤ sb) (hprec : prec ≤ wb)
    (m : Model) (hm : Model.EncOk prec m) (sym : Nat) (e e' : RangeEncoder)
    (hok : RangeEncoder.encodeSymbol wb sb prec m sym e = .ok e')
    (hlo : 2 ^ (sb - wb) ≤ e.range) (hhi : e.range < 2 ^ sb) :
    2 ^ (sb - wb) ≤ e'.range ∧ e'.range < 2 ^ sb := by
  rcases hl : m.lcp sym with _ | ⟨c, p⟩
  · rw [RangeEncoder.encodeSymbol, hl] at hok
    exact absurd hok (by simp)
  · obtain ⟨hp, hple⟩ := hm sym c p hl
    rw [encodeSymbol_eq_of_lcp wb sb prec m sym e c p hl] at hok
    simp only [Except.ok.injEq] at hok
    obtain ⟨heq1, heq2, heq3⟩ := rangeMul_bounds wb sb prec e.range p
      hwb hsb hprec hlo hhi hp hple
    rw [← hok]
    simp only [encRenormStep_range_eq]
    rw [heq1]
    by_cases hsmall : (e.range / 2 ^ prec) * p < 2 ^ (sb - wb)
    · rw [if_pos hsmall]
      obtain ⟨hs1, hs2, hs3⟩ := shifted_range_bounds wb sb _ hwb hsb heq2 hsmall
      rw [hs1]
      exact ⟨hs2, hs3⟩
    · rw [if_neg hsmall]
      exact ⟨not_lt.mp hsmall, lt_of_le_of_lt heq3 hhi⟩

theorem encodeSeq_inv (wb sb prec : Nat)
    (hwb : 1 ≤ wb) (hsb : 2 * wb ≤ sb) (hprec : prec ≤ wb) :
    ∀ (steps : List (Model × Nat)) (e e' : RangeEncoder),
    (∀ pr ∈ steps, Model.EncOk prec pr.1) →
    RangeEncoder.encodeSeq wb sb prec steps e = .ok e' →
    2 ^ (sb - wb) ≤ e.range → e.range < 2 ^ sb →
    2 ^ (sb - wb) ≤ e'.range ∧ e'.range < 2 ^ sb
  | [], e, e', hms, hok, h1, h2 => by
    simp only [RangeEncoder.encodeSeq, Except.ok.injEq] at hok
    rw [← hok]
    exact ⟨h1, h2⟩
  | (m, sym) :: rest, e, e', hms, hok, h1, h2 => by
    simp only [RangeEncoder.encodeSeq] at hok
    rcases hstep : RangeEncoder.encodeSymbol wb sb prec m sym e with err | e1
    · rw [hstep] at hok
      exact absurd hok (by simp)
    · rw [hstep] at hok
      have hm : Model.EncOk prec m := hms (m, sym) (by simp)
      obtain ⟨h1', h2'⟩ := encodeSymbol_inv wb sb prec hwb hsb hprec m hm sym
        e e1 hstep h1 h2
      exact encodeSeq_inv wb sb prec hwb hsb hprec rest e1 e'
        (fun pr hpr => hms pr (by simp [hpr])) hok h1' h2'

theorem readQueue_buf (cur : Cursor) : cur.readQueue.2.buf = cur.buf := by
  unfold Cursor.readQueue
  rcases h : cur.buf.get? cur.pos with _ | w <;> simp

theorem readQueue_some_mem (cur : Cursor) (w : Nat) (cur1 : Cursor)
    (h : cur.readQueue = (some w, cur1)) : w ∈ cur.buf := by
  unfold Cursor.readQueue at h
  rcases hg : cur.buf.get? cur.pos with _ | v
  · rw [hg] at h
    exact absurd h (by simp)
  · rw [hg] at h
    simp at h
    rw [← h.1]
    exact List.get?_mem hg

theorem decodeSymbol_ok_eq (wb sb prec : Nat) (m : Model) (d : RangeDecoder)
    (quantile c p s lower1 range1 : Nat)
    (hq : quantile = (d.point + (2 ^ sb - d.lower)) % 2 ^ sb / (d.range >>> prec))
    (hqf : m.qf quantile = (s, c, p))
    (hlt : quantile < 2 ^ prec)
    (hl1 : lower1 = (d.lower + (d.range >>> prec) * c) % 2 ^ sb)
    (hr1 : range1 = ((d.range >>> prec) * p) % 2 ^ sb) :
    RangeDecoder.decodeSymbol wb sb prec m d =
      .ok (s, ⟨(decRenormStep wb sb (lower1, range1, d.point, d.bulk)).2.2.2,
        (decRenormStep wb sb (lower1, range1, d.point, d.bulk)).1,
        (decRenormStep wb sb (lower1, range1, d.point, d.bulk)).2.1,
        (decRenormStep wb sb (lower1, range1, d.point, d.bulk)).2.2.1⟩) := by
  subst hq
  subst hl1
  subst hr1
  simp only [RangeDecoder.decodeSymbol]
  rw [if_neg (not_le.mpr hlt), hqf]

theorem decodeSymbol_inv (wb sb prec : Nat)
    (hwb : 1 ≤ wb) (hsb : 2 * wb ≤ sb) (hprec : prec ≤ wb)
    (m : Model) (hm : Model.Coherent prec m)
    (d : RangeDecoder) (s : Nat) (d' : RangeDecoder)
    (hok : RangeDecoder.decodeSymbol wb sb prec m d = .ok (s, d'))
    (hrlo : 2 ^ (sb - wb) ≤ d.range) (hrhi : d.range < 2 ^ sb)
    (hlow : d.lower < 2 ^ sb) (hpt : d.point < 2 ^ sb)
    (hbuf : ∀ w ∈ d.bulk.buf, w < 2 ^ wb) :
    2 ^ (sb - wb) ≤ d'.range ∧ d'.range < 2 ^ sb ∧ d'.lower < 2 ^ sb ∧
    d'.point < 2 ^ sb ∧ (d'.point + (2 ^ sb - d'.lower)) % 2 ^ sb < d'.range ∧
    d'.bulk.buf = d.bulk.buf := by
  have hN : (0 : Nat) < 2 ^ sb := Nat.two_pow_pos sb
  have hscale_pos : 0 < d.range >>> prec := by
    rw [Nat.shiftRight_eq_div_pow]
    apply Nat.div_pos ?_ (Nat.two_pow_pos prec)
    calc 2 ^ prec ≤ 2 ^ (sb - wb) :=
          Nat.pow_le_pow_right (by norm_num) (by omega)
      _ ≤ d.range := hrlo
  by_cases hqlt : (d.point + (2 ^ sb - d.lower)) % 2 ^ sb / (d.range >>> prec)
      < 2 ^ prec
  case neg =>
    simp only [RangeDecoder.decodeSymbol] at hok
    rw [if_pos (not_lt.mp hqlt)] at hok
    exact absurd hok (by simp)
  case pos =>
  rcases hqf : m.qf ((d.point + (2 ^ sb - d.lower)) % 2 ^ sb / (d.range >>> prec))
    with ⟨s0, c, p⟩
  rw [decodeSymbol_ok_eq wb sb prec m d _ c p s0 _ _ rfl hqf hqlt rfl rfl] at hok
  simp only [Except.ok.injEq, Prod.mk.injEq] at hok
  obtain ⟨hs0, hd'⟩ := hok
  have hcoh := hm _ hqlt
  rw [hqf] at hcoh
  simp only [] at hcoh
  obtain ⟨hcle, hclt, hcp, _⟩ := hcoh
  have hppos : 0 < p := by omega
  have hple : p ≤ 2 ^ prec := by omega
  obtain ⟨heq1, heq2, heq3⟩ := rangeMul_bounds wb sb prec d.range p
    hwb hsb hprec hrlo hrhi hppos hple
  have hdecomp := Nat.div_add_mod
    ((d.point + (2 ^ sb - d.lower)) % 2 ^ sb) (d.range >>> prec)
  have hrlt : (d.point + (2 ^ sb - d.lower)) % 2 ^ sb % (d.range >>> prec)
      < d.range >>> prec := Nat.mod_lt _ hscale_pos
  have hkle : (d.range >>> prec) * c ≤ (d.point + (2 ^ sb - d.lower)) % 2 ^ sb := by
    have h1 : (d.range >>> prec) * c ≤ (d.range >>> prec) *
        ((d.point + (2 ^ sb - d.lower)) % 2 ^ sb / (d.range >>> prec)) :=
      Nat.mul_le_mul_left _ hcle
    omega
  have hPI1 : (d.point +
      (2 ^ sb - (d.lower + (d.range >>> prec) * c) % 2 ^ sb)) % 2 ^ sb =
      (d.point + (2 ^ sb - d.lower)) % 2 ^ sb - (d.range >>> prec) * c :=
    decode_wrap_sub (2 ^ sb) d.point d.lower _ _ hN hpt hlow rfl hkle
  have hD1lt : (d.point + (2 ^ sb - d.lower)) % 2 ^ sb - (d.range >>> prec) * c
      < (d.range >>> prec) * p := by
    have e1 : (d.range >>> prec) *
        ((d.point + (2 ^ sb - d.lower)) % 2 ^ sb / (d.range >>> prec)) =
        (d.range >>> prec) * c + (d.range >>> prec) *
          ((d.point + (2 ^ sb - d.lower)) % 2 ^ sb / (d.range >>> prec) - c) := by
      rw [← Nat.mul_add]
      congr 1
      omega
    have e2 : (d.range >>> prec) *
        ((d.point + (2 ^ sb - d.lower)) % 2 ^ sb / (d.range >>> prec) - c + 1) =
        (d.range >>> prec) *
          ((d.point + (2 ^ sb - d.lower)) % 2 ^ sb / (d.range >>> prec) - c) +
          (d.range >>> prec) := by
      rw [Nat.mul_add, Nat.mul_one]
    have e3 : (d.range >>> prec) *
        ((d.point + (2 ^ sb - d.lower)) % 2 ^ sb / (d.range >>> prec) - c + 1) ≤
        (d.range >>> prec) * p := Nat.mul_le_mul_left _ (by omega)
    omega
  have hscale_div : d.range >>> prec = d.range / 2 ^ prec :=
    Nat.shiftRight_eq_div_pow _ _
  have hl1lt : (d.lower + (d.range >>> prec) * c) % 2 ^ sb < 2 ^ sb :=
    Nat.mod_lt _ hN
  by_cases hren : ((d.range >>> prec) * p) % 2 ^ sb < 2 ^ (sb - wb)
  · -- renormalization runs
    have hrsmall : (d.range >>> prec) * p < 2 ^ (sb - wb) := by
      have h2 : (d.range >>> prec) * p = ((d.range >>> prec) * p) % 2 ^ sb := by
        rw [heq1, hscale_div]
      rw [h2]
      exact hren
    have hD1small : (d.point + (2 ^ sb - d.lower)) % 2 ^ sb -
        (d.range >>> prec) * c < 2 ^ (sb - wb) := lt_trans hD1lt hrsmall
    obtain ⟨hsh1, hsh2, hsh3⟩ := shifted_range_bounds wb sb
      (d.range / 2 ^ prec * p) hwb hsb heq2 (by rw [← hscale_div]; exact hrsmall)
    rw [← hd']
    unfold decRenormStep
    rw [if_pos hren]
    unfold decRenormBody
    simp only []
    rcases hrq : Cursor.readQueue d.bulk with ⟨ow, cur1⟩
    have hbufeq : cur1.buf = d.bulk.buf := by
      have := readQueue_buf d.bulk
      rw [hrq] at this
      exact this
    rcases ow with _ | w
    · -- backend exhausted: a zero word is shifted in
      simp only []
      have hPI2 := renorm_wrap_sub wb sb d.point
        ((d.lower + (d.range >>> prec) * c) % 2 ^ sb)
        ((d.point + (2 ^ sb - d.lower)) % 2 ^ sb - (d.range >>> prec) * c)
        0 (by omega) hpt hl1lt hPI1.symm hD1small (Nat.two_pow_pos wb)
      rw [Nat.add_zero] at hPI2
      refine ⟨?_, ?_, Nat.mod_lt _ hN, Nat.mod_lt _ hN, ?_, hbufeq⟩
      · rw [heq1, hsh1]
        exact hsh2
      · exact Nat.mod_lt _ hN
      · rw [hPI2, heq1, hsh1]
        have hstep : ((d.point + (2 ^ sb - d.lower)) % 2 ^ sb -
            (d.range >>> prec) * c + 1) * 2 ^ wb ≤
            d.range / 2 ^ prec * p * 2 ^ wb := by
          apply Nat.mul_le_mul_right
          have hlink : d.range >>> prec * p = d.range / 2 ^ prec * p := by
            rw [hscale_div]
          omega
        have hexp : ((d.point + (2 ^ sb - d.lower)) % 2 ^ sb -
            (d.range >>> prec) * c + 1) * 2 ^ wb =
            ((d.point + (2 ^ sb - d.lower)) % 2 ^ sb -
              (d.range >>> prec) * c) * 2 ^ wb + 2 ^ wb := by ring
        have hz : (0 : Nat) < 2 ^ wb := Nat.two_pow_pos wb
        omega
    · -- a word is shifted in
      simp only []
      have hwlt : w < 2 ^ wb := by
        apply hbuf
        exact readQueue_some_mem d.bulk w cur1 hrq
      have hlor : ((d.point <<< wb) % 2 ^ sb) ||| w =
          (d.point <<< wb) % 2 ^ sb + w := by
        rw [shift_low_bits wb sb d.point (by omega)]
        exact lorTwoPowMul _ _ _ hwlt
      have hPI2 := renorm_wrap_sub wb sb d.point
        ((d.lower + (d.range >>> prec) * c) % 2 ^ sb)
        ((d.point + (2 ^ sb - d.lower)) % 2 ^ sb - (d.range >>> prec) * c)
        w (by omega) hpt hl1lt hPI1.symm hD1small hwlt
      refine ⟨?_, ?_, Nat.mod_lt _ hN, ?_, ?_, hbufeq⟩
      · rw [heq1, hsh1]
        exact hsh2
      · exact Nat.mod_lt _ hN
      · rw [hlor, shift_low_bits wb sb d.point (by omega)]
        have hpm : d.point % 2 ^ (sb - wb) < 2 ^ (sb - wb) :=
          Nat.mod_lt _ (Nat.two_pow_pos _)
        have h0 : (d.point % 2 ^ (sb - wb) + 1) * 2 ^ wb =
            d.point % 2 ^ (sb - wb) * 2 ^ wb + 2 ^ wb := by ring
        have h2 : (d.point % 2 ^ (sb - wb) + 1) * 2 ^ wb ≤
            2 ^ (sb - wb) * 2 ^ wb := Nat.mul_le_mul_right _ (by omega)
        have hpow : (2 : Nat) ^ (sb - wb) * 2 ^ wb = 2 ^ sb := by
          rw [← pow_add]
          congr 1
          omega
        omega
      · rw [hlor, hPI2, heq1, hsh1]
        have hstep : ((d.point + (2 ^ sb - d.lower)) % 2 ^ sb -
            (d.range >>> prec) * c + 1) * 2 ^ wb ≤
            d.range / 2 ^ prec * p * 2 ^ wb := by
          apply Nat.mul_le_mul_right
          have hlink : d.range >>> prec * p = d.range / 2 ^ prec * p := by
            rw [hscale_div]
          omega
        have hexp : ((d.point + (2 ^ sb - d.lower)) % 2 ^ sb -
            (d.range >>> prec) * c + 1) * 2 ^ wb =
            ((d.point + (2 ^ sb - d.lower)) % 2 ^ sb -
              (d.range >>> prec) * c) * 2 ^ wb + 2 ^ wb := by ring
        omega
  · -- no renormalization
    rw [← hd']
    unfold decRenormStep
    rw [if_neg hren]
    simp only []
    refine ⟨not_lt.mp hren, Nat.mod_lt _ hN, hl1lt, hpt, ?_, ?_⟩
    · rw [hPI1]
      have hle : (d.range >>> prec) * p ≤ ((d.range >>> prec) * p) % 2 ^ sb := by
        rw [heq1, hscale_div]
      omega
    · trivial

theorem readPointAux_bounds (wb sb : Nat) (hws : wb ≤ sb) :
    ∀ (k : Nat) (cur : Cursor) (point : Nat),
    (∀ w ∈ cur.buf, w < 2 ^ wb) → point < 2 ^ sb →
    (readPointAux wb sb k cur point).1 < 2 ^ sb ∧
    (readPointAux wb sb k cur point).2.2.buf = cur.buf
  | 0, cur, point, hb, hp => ⟨hp, rfl⟩
  | k + 1, cur, point, hb, hp => by
    simp only [readPointAux]
    rcases hrq : cur.readQueue with ⟨ow, cur1⟩
    have hbufeq : cur1.buf = cur.buf := by rw [← readQueue_buf cur, hrq]
    rcases ow with _ | w
    · exact ⟨hp, hbufeq⟩
    · simp only []
      have hw : w < 2 ^ wb := hb w (readQueue_some_mem cur w cur1 hrq)
      have hpt1 : ((point <<< wb) % 2 ^ sb) ||| w < 2 ^ sb :=
        Nat.or_lt_two_pow (Nat.mod_lt _ (Nat.two_pow_pos sb))
          (lt_of_lt_of_le hw (Nat.pow_le_pow_right (by norm_num) hws))
      have hrec := readPointAux_bounds wb sb hws k cur1
        (((point <<< wb) % 2 ^ sb) ||| w)
        (by rw [hbufeq]; exact hb) hpt1
      exact ⟨hrec.1, hrec.2.trans hbufeq⟩

theorem readPoint_bounds (wb sb : Nat) (cur : Cursor)
    (hb : ∀ w ∈ cur.buf, w < 2 ^ wb) (hws : wb ≤ sb) :
    (readPoint wb sb cur).1 < 2 ^ sb ∧ (readPoint wb sb cur).2.buf = cur.buf := by
  simp only [readPoint]
  obtain ⟨h1, h2⟩ := readPointAux_bounds wb sb hws (sb / wb) cur 0 hb
    (Nat.two_pow_pos sb)
  constructor
  · split
    · exact Nat.mod_lt _ (Nat.two_pow_pos sb)
    · exact h1
  · split
    · exact h2
    · exact h2

theorem decodeSeq_inv_aux (wb sb prec : Nat)
    (hwb : 1 ≤ wb) (hsb : 2 * wb ≤ sb) (hprec : prec ≤ wb) :
    ∀ (ms : List Model) (d : RangeDecoder) (sig : List Nat) (d' : RangeDecoder),
    (∀ mm ∈ ms, Model.Coherent prec mm) →
    RangeDecoder.decodeSeq wb sb prec ms d = .ok (sig, d') →
    2 ^ (sb - wb) ≤ d.range → d.range < 2 ^ sb → d.lower < 2 ^ sb →
    d.point < 2 ^ sb →
    (d.point + (2 ^ sb - d.lower)) % 2 ^ sb < d.range →
    (∀ w ∈ d.bulk.buf, w < 2 ^ wb) →
    2 ^ (sb - wb) ≤ d'.range ∧ d'.range < 2 ^ sb ∧ d'.lower < 2 ^ sb ∧
    d'.point < 2 ^ sb ∧ (d'.point + (2 ^ sb - d'.lower)) % 2 ^ sb < d'.range ∧
    (∀ w ∈ d'.bulk.buf, w < 2 ^ wb)
  | [], d, sig, d', hms, hok, h1, h2, h3, h4, h5, h6 => by
    simp only [RangeDecoder.decodeSeq, Except.ok.injEq, Prod.mk.injEq] at hok
    rw [← hok.2]
    exact ⟨h1, h2, h3, h4, h5, h6⟩
  | m :: rest, d, sig, d', hms, hok, h1, h2, h3, h4, h5, h6 => by
    simp only [RangeDecoder.decodeSeq] at hok
    split at hok
    · exact absurd hok (by simp)
    · rename_i s d1 hstep
      split at hok
      · exact absurd hok (by simp)
      · rename_i sig2 d2 hrest
        simp only [Except.ok.injEq, Prod.mk.injEq] at hok
        obtain ⟨i1, i2, i3, i4, i5, i6⟩ := decodeSymbol_inv wb sb prec hwb hsb
          hprec m (hms m (by simp)) d s d1 hstep h1 h2 h3 h4 h6
        have hbuf1 : ∀ w ∈ d1.bulk.buf, w < 2 ^ wb := by
          rw [i6]
          exact h6
        rw [← hok.2]
        exact decodeSeq_inv_aux wb sb prec hwb hsb hprec rest d1 sig2 d2
          (fun mm hmm => hms mm (by simp [hmm])) hrest i1 i2 i3 i4 i5 hbuf1

theorem decodeSeq_inv_ne (wb sb prec : Nat)
    (hwb : 1 ≤ wb) (hsb : 2 * wb ≤ sb) (hprec : prec ≤ wb)
    (ms : List Model) (d : RangeDecoder) (sig : List Nat) (d' : RangeDecoder)
    (hms : ∀ mm ∈ ms, Model.Coherent prec mm) (hne : ms ≠ [])
    (hok : RangeDecoder.decodeSeq wb sb prec ms d = .ok (sig, d'))
    (h1 : 2 ^ (sb - wb) ≤ d.range) (h2 : d.range < 2 ^ sb)
    (h3 : d.lower < 2 ^ sb) (h4 : d.point < 2 ^ sb)
    (h6 : ∀ w ∈ d.bulk.buf, w < 2 ^ wb) :
    2 ^ (sb - wb) ≤ d'.range ∧ d'.range < 2 ^ sb ∧ d'.lower < 2 ^ sb ∧
    d'.point < 2 ^ sb ∧ (d'.point + (2 ^ sb - d'.lower)) % 2 ^ sb < d'.range ∧
    (∀ w ∈ d'.bulk.buf, w < 2 ^ wb) := by
  rcases ms with _ | ⟨m, rest⟩
  · exact absurd rfl hne
  · simp only [RangeDecoder.decodeSeq] at hok
    split at hok
    · exact absurd hok (by simp)
    · rename_i s d1 hstep
      split at hok
      · exact absurd hok (by simp)
      · rename_i sig2 d2 hrest
        simp only [Except.ok.injEq, Prod.mk.injEq] at hok
        obtain ⟨i1, i2, i3, i4, i5, i6⟩ := decodeSymbol_inv wb sb prec hwb hsb
          hprec m (hms m (by simp)) d s d1 hstep h1 h2 h3 h4 h6
        have hbuf1 : ∀ w ∈ d1.bulk.buf, w < 2 ^ wb := by
          rw [i6]
          exact h6
        rw [← hok.2]
        exact decodeSeq_inv_aux wb sb prec hwb hsb hprec rest d1 sig2 d2
          (fun mm hmm => hms mm (by simp [hmm])) hrest i1 i2 i3 i4 i5 hbuf1

/-- C3: for every sequence of `encode_symbol` calls on a range encoder
starting from `new()`, with models whose probabilities are nonzero and
`PRECISION`-bit, the invariant `range ≥ 2 ^ (State.BITS - Word.BITS)` holds
after every call; and for every nonempty sequence of `decode_symbol` calls
on a range decoder constructed from a compressed buffer, both that
invariant and the decoder invariant `point ⊖ lower < range` (wrapping
subtraction) hold after every call. -/
theorem range_coder_state_invariants (wb sb prec : Nat)
    (hwb : 1 ≤ wb) (hsb : 2 * wb ≤ sb) (hprec : prec ≤ wb)
    (steps : List (Model × Nat)) (e' : RangeEncoder)
    (hencok : ∀ pr ∈ steps, Model.EncOk prec pr.1)
    (henc : RangeEncoder.encodeSeq wb sb prec steps (RangeEncoder.new sb) = .ok e')
    (buf : List Nat) (hbuf : ∀ w ∈ buf, w < 2 ^ wb)
    (ms : List Model) (hms : ∀ mm ∈ ms, Model.Coherent prec mm)
    (hne : ms ≠ []) (sigma : List Nat) (d' : RangeDecoder)
    (hdec : RangeDecoder.decodeSeq wb sb prec ms
      (RangeDecoder.fromCompressed wb sb buf) = .ok (sigma, d')) :
    2 ^ (sb - wb) ≤ e'.range ∧
    2 ^ (sb - wb) ≤ d'.range ∧
    (d'.point + (2 ^ sb - d'.lower)) % 2 ^ sb < d'.range := by
  have hmax : (2 : Nat) ^ (sb - wb) ≤ 2 ^ sb - 1 := by
    have hlt1 : (2 : Nat) ^ (sb - wb) ≤ 2 ^ (sb - 1) :=
      Nat.pow_le_pow_right (by norm_num) (by omega)
    have hlt2 : (2 : Nat) ^ (sb - 1) < 2 ^ sb :=
      Nat.pow_lt_pow_right (by norm_num) (by omega)
    omega
  have hmax2 : 2 ^ sb - 1 < 2 ^ sb := by
    have := Nat.two_pow_pos sb
    omega
  obtain ⟨hpt, hbufeq⟩ := readPoint_bounds wb sb ⟨buf, 0⟩ hbuf (by omega)
  have hfc_buf : (RangeDecoder.fromCompressed wb sb buf).bulk.buf = buf := hbufeq
  obtain ⟨j1, j2, j3, j4, j5, j6⟩ := decodeSeq_inv_ne wb sb prec hwb hsb hprec
    ms (RangeDecoder.fromCompressed wb sb buf) sigma d' hms hne hdec
    hmax hmax2 (Nat.two_pow_pos sb) hpt (by rw [hfc_buf]; exact hbuf)
  exact ⟨(encodeSeq_inv wb sb prec hwb hsb hprec steps (RangeEncoder.new sb) e'
    hencok henc hmax hmax2).1, j1, j5⟩

/-- Witness for C3 at `Word = u2`, `State = u4`, `PRECISION = 2` with the
two-symbol uniform model. -/
theorem range_coder_state_invariants_witness :
    ((∀ pr ∈ [(mUnif, 0)], Model.EncOk 2 pr.1) ∧
      RangeEncoder.encodeSeq 2 4 2 [(mUnif, 0)] (RangeEncoder.new 4) =
        .ok ⟨[], 0, 6, .normal⟩ ∧
      (∀ w ∈ [2, 1], w < 2 ^ 2) ∧
      (∀ mm ∈ [mUnif], Model.Coherent 2 mm) ∧
      RangeDecoder.decodeSeq 2 4 2 [mUnif]
        (RangeDecoder.fromCompressed 2 4 [2, 1]) =
        .ok ([1], ⟨⟨[2, 1], 2⟩, 6, 6, 9⟩)) ∧
    (2 ^ (4 - 2) ≤ (⟨[], 0, 6, .normal⟩ : RangeEncoder).range ∧
      2 ^ (4 - 2) ≤ (⟨⟨[2, 1], 2⟩, 6, 6, 9⟩ : RangeDecoder).range ∧
      ((⟨⟨[2, 1], 2⟩, 6, 6, 9⟩ : RangeDecoder).point +
        (2 ^ 4 - (⟨⟨[2, 1], 2⟩, 6, 6, 9⟩ : RangeDecoder).lower)) % 2 ^ 4 <
        (⟨⟨[2, 1], 2⟩, 6, 6, 9⟩ : RangeDecoder).range) := by
  have hE : Model.EncOk 2 mUnif := by
    intro s c p h
    simp only [mUnif] at h
    split_ifs at h <;> simp at h <;> omega
  have hC : Model.Coherent 2 mUnif := by
    unfold Model.Coherent
    decide
  have hencok : ∀ pr ∈ [(mUnif, 0)], Model.EncOk 2 pr.1 := by
    intro pr hpr
    simp at hpr
    rw [hpr]
    exact hE
  have hcoh : ∀ mm ∈ [mUnif], Model.Coherent 2 mm := by
    intro mm hmm
    simp at hmm
    rw [hmm]
    exact hC
  refine ⟨⟨hencok, by rfl, by decide, hcoh, by rfl⟩, ?_⟩
  exact range_coder_state_invariants 2 4 2 (by decide) (by decide) (by decide)
    [(mUnif, 0)] ⟨[], 0, 6, .normal⟩ hencok (by rfl)
    [2, 1] (by decide) [mUnif] hcoh (by simp) [1] ⟨⟨[2, 1], 2⟩, 6, 6, 9⟩
    (by rfl)

-- ======================= C1: chain coder round trip =======================

theorem digitsLE_lt (wb : Nat) : ∀ j v w, w ∈ digitsLE wb j v → w < 2 ^ wb := by
  intro j
  induction j with
  | zero => intro v w hw; simp [digitsLE] at hw
  | succ j ih =>
    intro v w hw
    simp only [digitsLE, List.mem_cons] at hw
    rcases hw with rfl | hw
    · exact Nat.mod_lt _ (Nat.two_pow_pos wb)
    · exact ih _ _ hw

theorem digitsLE_succ_eq (wb : Nat) :
    ∀ j v, digitsLE wb (j + 1) v =
      digitsLE wb j v ++ [v >>> (j * wb) % 2 ^ wb] := by
  intro j
  induction j with
  | zero => intro v; simp [digitsLE]
  | succ j ih =>
    intro v
    have h1 : v >>> wb >>> (j * wb) = v >>> ((j + 1) * wb) := by
      rw [← Nat.shiftRight_add]
      congr 1
      ring
    show v % 2 ^ wb :: digitsLE wb (j + 1) (v >>> wb) =
      (v % 2 ^ wb :: digitsLE wb j (v >>> wb)) ++ [v >>> ((j + 1) * wb) % 2 ^ wb]
    rw [ih (v >>> wb), h1]
    simp

theorem flushStateAux_congr (wb : Nat) (hw : 0 < wb) :
    ∀ f1 f2 v, v ≤ f1 → v ≤ f2 → flushStateAux wb f1 v = flushStateAux wb f2 v := by
  intro f1
  induction f1 with
  | zero =>
    intro f2 v h1 h2
    have hv : v = 0 := Nat.le_zero.mp h1
    subst hv
    cases f2 with
    | zero => rfl
    | succ f2 => simp [flushStateAux]
  | succ f1 ih =>
    intro f2 v h1 h2
    cases f2 with
    | zero =>
      have hv : v = 0 := Nat.le_zero.mp h2
      subst hv
      simp [flushStateAux]
    | succ f2 =>
      simp only [flushStateAux]
      by_cases hv : v = 0
      · simp [hv]
      · rw [if_neg hv, if_neg hv]
        congr 1
        have hlt : v >>> wb < v := by
          rw [Nat.shiftRight_eq_div_pow]
          exact Nat.div_lt_self (Nat.pos_of_ne_zero hv)
            (Nat.one_lt_two_pow_iff.mpr (by omega))
        exact ih f2 (v >>> wb) (by omega) (by omega)

theorem flushStateAux_pos (wb f v : Nat) (hv : v ≠ 0) (hf : v ≤ f) :
    flushStateAux wb f v = v % 2 ^ wb :: flushStateAux wb (f - 1) (v >>> wb) := by
  cases f with
  | zero => omega
  | succ f =>
    simp only [flushStateAux]
    rw [if_neg hv]
    simp

theorem flushState_cons (wb v : Nat) (hw : 0 < wb) (hv : v ≠ 0) :
    flushState wb v = v % 2 ^ wb :: flushState wb (v >>> wb) := by
  unfold flushState
  rw [flushStateAux_pos wb v v hv le_rfl]
  congr 1
  have hlt : v >>> wb < v := by
    rw [Nat.shiftRight_eq_div_pow]
    exact Nat.div_lt_self (Nat.pos_of_ne_zero hv)
      (Nat.one_lt_two_pow_iff.mpr (by omega))
  exact flushStateAux_congr wb hw (v - 1) (v >>> wb) (v >>> wb) (by omega) le_rfl

theorem flushState_zero (wb : Nat) : flushState wb 0 = [] := rfl

theorem flushState_small (wb v : Nat) (hw : 0 < wb) (h0 : 0 < v)
    (hv : v < 2 ^ wb) : flushState wb v = [v] := by
  rw [flushState_cons wb v hw (by omega), Nat.mod_eq_of_lt hv]
  have h : v >>> wb = 0 := by
    rw [Nat.shiftRight_eq_div_pow]
    exact Nat.div_eq_of_lt hv
  rw [h, flushState_zero]

theorem flushState_decompose (wb : Nat) (hw : 0 < wb) :
    ∀ j v, v >>> (j * wb) ≠ 0 →
      flushState wb v = digitsLE wb j v ++ flushState wb (v >>> (j * wb)) := by
  intro j
  induction j with
  | zero =>
    intro v h
    simp [digitsLE]
  | succ j ih =>
    intro v h
    have hv0 : v ≠ 0 := by
      intro e
      rw [e] at h
      simp at h
    have hsh : v >>> wb >>> (j * wb) = v >>> ((j + 1) * wb) := by
      rw [← Nat.shiftRight_add]
      congr 1
      ring
    rw [flushState_cons wb v hw hv0]
    simp only [digitsLE]
    rw [ih (v >>> wb) (by rw [hsh]; exact h), hsh]
    simp

theorem flushState_top (wb : Nat) (hw : 0 < wb) :
    ∀ v, 0 < v → ∃ j w, flushState wb v = digitsLE wb j v ++ [w] ∧
      v >>> (j * wb) = w ∧ 0 < w ∧ w < 2 ^ wb := by
  intro v
  induction v using Nat.strong_induction_on with
  | _ v ih =>
    intro hv
    by_cases hsmall : v < 2 ^ wb
    · refine ⟨0, v, ?_, ?_, hv, hsmall⟩
      · rw [flushState_small wb v hw hv hsmall]
        simp [digitsLE]
      · simp
    · push_neg at hsmall
      have hlt : v >>> wb < v := by
        rw [Nat.shiftRight_eq_div_pow]
        exact Nat.div_lt_self hv (Nat.one_lt_two_pow_iff.mpr (by omega))
      have hpos : 0 < v >>> wb := by
        rw [Nat.shiftRight_eq_div_pow]
        exact Nat.div_pos hsmall (Nat.two_pow_pos wb)
      obtain ⟨j, w, he, hs, hw0, hwlt⟩ := ih (v >>> wb) hlt hpos
      refine ⟨j + 1, w, ?_, ?_, hw0, hwlt⟩
      · rw [flushState_cons wb v hw (by omega), he]
        simp [digitsLE]
      · rw [← hs, ← Nat.shiftRight_add]
        congr 1
        ring

theorem headsNewLoop_digits (wb sb prec : Nat) (hw : 0 < wb)
    (hws : wb + prec ≤ sb) :
    ∀ j V X, 2 ^ (sb - wb - prec) ≤ V → V < 2 ^ (sb - prec) →
      headsNewLoop wb sb prec (V >>> (j * wb)) (X ++ digitsLE wb j V) =
        some (V, X) := by
  intro j
  induction j with
  | zero =>
    intro V X hT hU
    rw [headsNewLoop]
    simp only [Nat.zero_mul, Nat.shiftRight_zero, digitsLE, List.append_nil]
    rw [if_neg (by omega)]
  | succ j ih =>
    intro V X hT hU
    have hpow : 2 ^ (sb - wb - prec) * 2 ^ wb = 2 ^ (sb - prec) := by
      rw [← pow_add]
      congr 1
      omega
    have hhead : V >>> ((j + 1) * wb) < 2 ^ (sb - wb - prec) := by
      by_contra hge
      push_neg at hge
      have h1 : V >>> ((j + 1) * wb) * 2 ^ ((j + 1) * wb) ≤ V := by
        rw [Nat.shiftRight_eq_div_pow]
        exact Nat.div_mul_le_self V _
      have h2 : 2 ^ wb ≤ 2 ^ ((j + 1) * wb) :=
        Nat.pow_le_pow_right (by norm_num)
          (Nat.le_mul_of_pos_left wb (by omega))
      have h3 : 2 ^ (sb - wb - prec) * 2 ^ wb ≤
          V >>> ((j + 1) * wb) * 2 ^ ((j + 1) * wb) :=
        Nat.mul_le_mul hge h2
      omega
    rw [headsNewLoop, if_pos hhead]
    rw [digitsLE_succ_eq, ← List.append_assoc]
    split
    · rename_i heq
      rw [vecPop_append] at heq
      exact absurd heq (by simp)
    · rename_i w src1 heq
      rw [vecPop_append] at heq
      simp only [Option.some.injEq, Prod.mk.injEq] at heq
      obtain ⟨rfl, rfl⟩ := heq
      have e1 : (V >>> ((j + 1) * wb)) <<< wb % 2 ^ sb =
          V >>> ((j + 1) * wb) * 2 ^ wb := by
        rw [Nat.shiftLeft_eq]
        apply Nat.mod_eq_of_lt
        have h4 : V >>> ((j + 1) * wb) * 2 ^ wb < 2 ^ (sb - wb - prec) * 2 ^ wb :=
          (Nat.mul_lt_mul_right (Nat.two_pow_pos wb)).mpr hhead
        have h5 : 2 ^ (sb - prec) ≤ 2 ^ sb :=
          Nat.pow_le_pow_right (by norm_num) (by omega)
        omega
      have e2 : V >>> (j * wb) % 2 ^ wb < 2 ^ wb :=
        Nat.mod_lt _ (Nat.two_pow_pos wb)
      have e3 : V >>> ((j + 1) * wb) * 2 ^ wb ||| V >>> (j * wb) % 2 ^ wb =
          V >>> ((j + 1) * wb) * 2 ^ wb + V >>> (j * wb) % 2 ^ wb :=
        lorTwoPowMul _ _ _ e2
      have e4 : V >>> ((j + 1) * wb) * 2 ^ wb + V >>> (j * wb) % 2 ^ wb =
          V >>> (j * wb) := by
        have h6 : V >>> ((j + 1) * wb) = V >>> (j * wb) >>> wb := by
          rw [← Nat.shiftRight_add]
          congr 1
          ring
        rw [h6, Nat.shiftRight_eq_div_pow,
          Nat.mul_comm (V >>> (j * wb) / 2 ^ wb) (2 ^ wb)]
        exact Nat.div_add_mod _ _
      rw [e1, e3, e4]
      exact ih V X hT hU

theorem headsNewLoop_spec (wb sb prec : Nat) (hw : 0 < wb)
    (hws : wb + prec ≤ sb) :
    ∀ n src hr0 hr src1, src.length ≤ n → (∀ w ∈ src, w < 2 ^ wb) →
      hr0 < 2 ^ (sb - prec) →
      headsNewLoop wb sb prec hr0 src = some (hr, src1) →
      2 ^ (sb - wb - prec) ≤ hr ∧ hr < 2 ^ (sb - prec) ∧
        ∃ j, src = src1 ++ digitsLE wb j hr ∧ hr >>> (j * wb) = hr0 := by
  intro n
  induction n with
  | zero =>
    intro src hr0 hr src1 hlen hwords hU hloop
    have hsrc : src = [] := List.length_eq_zero.mp (Nat.le_zero.mp hlen)
    subst hsrc
    rw [headsNewLoop] at hloop
    by_cases hc : hr0 < 2 ^ (sb - wb - prec)
    · rw [if_pos hc] at hloop
      split at hloop
      · exact absurd hloop (by simp)
      · rename_i w src' heq
        rw [vecPop_nil] at heq
        exact absurd heq (by simp)
    · rw [if_neg hc] at hloop
      simp only [Option.some.injEq, Prod.mk.injEq] at hloop
      obtain ⟨rfl, rfl⟩ := hloop
      refine ⟨by omega, hU, 0, by simp [digitsLE], by simp⟩
  | succ n ih =>
    intro src hr0 hr src1 hlen hwords hU hloop
    rw [headsNewLoop] at hloop
    by_cases hc : hr0 < 2 ^ (sb - wb - prec)
    · rw [if_pos hc] at hloop
      split at hloop
      · exact absurd hloop (by simp)
      · rename_i w src' heq
        have hsrc : src = src' ++ [w] := vecPop_eq_some heq
        have hwlt : w < 2 ^ wb := hwords w (by rw [hsrc]; simp)
        have hpow : 2 ^ (sb - wb - prec) * 2 ^ wb = 2 ^ (sb - prec) := by
          rw [← pow_add]
          congr 1
          omega
        have hsh : hr0 <<< wb % 2 ^ sb = hr0 * 2 ^ wb := by
          rw [Nat.shiftLeft_eq]
          apply Nat.mod_eq_of_lt
          have h4 : hr0 * 2 ^ wb < 2 ^ (sb - wb - prec) * 2 ^ wb :=
            (Nat.mul_lt_mul_right (Nat.two_pow_pos wb)).mpr hc
          have h5 : 2 ^ (sb - prec) ≤ 2 ^ sb :=
            Nat.pow_le_pow_right (by norm_num) (by omega)
          omega
        have hlor : hr0 * 2 ^ wb ||| w = hr0 * 2 ^ wb + w :=
          lorTwoPowMul _ _ _ hwlt
        rw [hsh, hlor] at hloop
        have hU1 : hr0 * 2 ^ wb + w < 2 ^ (sb - prec) := by
          have h6 : (hr0 + 1) * 2 ^ wb ≤ 2 ^ (sb - wb - prec) * 2 ^ wb :=
            Nat.mul_le_mul_right _ (by omega)
          have h7 : (hr0 + 1) * 2 ^ wb = hr0 * 2 ^ wb + 2 ^ wb := by ring
          omega
        have hlen1 : src'.length ≤ n := by
          rw [hsrc] at hlen
          simp at hlen
          omega
        have hwords1 : ∀ x ∈ src', x < 2 ^ wb := fun x hx =>
          hwords x (by rw [hsrc]; simp [hx])
        obtain ⟨h1, h2, j, hsrc2, hshift⟩ :=
          ih src' _ hr src1 hlen1 hwords1 hU1 hloop
        refine ⟨h1, h2, j + 1, ?_, ?_⟩
        · have hd : hr >>> (j * wb) % 2 ^ wb = w := by
            rw [hshift, Nat.mul_comm hr0 (2 ^ wb), Nat.mul_add_mod]
            exact Nat.mod_eq_of_lt hwlt
          rw [hsrc, hsrc2, digitsLE_succ_eq, hd]
          simp
        · have h8 : hr >>> ((j + 1) * wb) = hr >>> (j * wb) >>> wb := by
            rw [← Nat.shiftRight_add]
            congr 1
            ring
          rw [h8, hshift, Nat.shiftRight_eq_div_pow, Nat.add_comm,
            Nat.add_mul_div_right _ _ (Nat.two_pow_pos wb),
            Nat.div_eq_of_lt hwlt]
          omega
    · rw [if_neg hc] at hloop
      simp only [Option.some.injEq, Prod.mk.injEq] at hloop
      obtain ⟨rfl, rfl⟩ := hloop
      refine ⟨by omega, hU, 0, by simp [digitsLE], by simp⟩

theorem chainEncodeTail_recover (wb sb prec cc p qv hr : Nat)
    (Z Y : List Nat) (hq1 : Nat) (hle : cc ≤ qv) (hlt : qv < cc + p) :
    chainEncodeTail wb sb prec cc p (hr * p + (qv - cc)) Z Y hq1 =
      if prec ≠ wb ∧ hq1 < 2 ^ (wb - prec) then
        ⟨Z, Y, hq1 <<< prec % 2 ^ wb ||| qv, hr⟩
      else
        ⟨Z ++ [if prec = wb then qv else hq1 <<< prec % 2 ^ wb ||| qv], Y,
          if prec = wb then hq1 else hq1 >>> (wb - prec), hr⟩ := by
  have hp : 0 < p := by omega
  have hrem : (hr * p + (qv - cc)) % p = qv - cc := by
    rw [Nat.mul_comm, Nat.mul_add_mod]
    exact Nat.mod_eq_of_lt (by omega)
  have hdiv : (hr * p + (qv - cc)) / p = hr := by
    rw [Nat.add_comm, Nat.add_mul_div_right _ _ hp, Nat.div_eq_of_lt (by omega)]
    omega
  have hcc : cc + (qv - cc) = qv := by omega
  simp only [chainEncodeTail, hrem, hdiv, hcc]

theorem chainEncodeSymbol_eq_of_lcp (wb sb prec : Nat) (m : Model)
    (s cc p : Nat) (c : ChainCoder) (h : m.lcp s = some (cc, p)) :
    ChainCoder.encodeSymbol wb sb prec m s c =
      if c.hr < p <<< (sb - wb - prec) % 2 ^ sb then
        match vecPop c.remainders with
        | none => .error (.outOfRemainders, c)
        | some (w, r1) =>
          .ok (chainEncodeTail wb sb prec cc p ((c.hr <<< wb % 2 ^ sb) ||| w)
            c.quantiles r1 c.hq)
      else
        .ok (chainEncodeTail wb sb prec cc p c.hr c.quantiles c.remainders
          c.hq) := by
  unfold ChainCoder.encodeSymbol
  rw [h]

theorem shiftRecompose (sb wb v : Nat) (hv : v < 2 ^ sb) :
    v >>> wb <<< wb % 2 ^ sb ||| v % 2 ^ wb = v := by
  rw [Nat.shiftLeft_eq, Nat.shiftRight_eq_div_pow]
  have hm1 : v / 2 ^ wb * 2 ^ wb ≤ v := Nat.div_mul_le_self _ _
  rw [Nat.mod_eq_of_lt (Nat.lt_of_le_of_lt hm1 hv)]
  rw [lorTwoPowMul _ _ _ (Nat.mod_lt _ (Nat.two_pow_pos wb))]
  rw [Nat.mul_comm (v / 2 ^ wb) (2 ^ wb)]
  exact Nat.div_add_mod _ _

theorem chainDecodeTail_inv (wb sb prec : Nat) (hp : 0 < prec)
    (hpw : prec ≤ wb) (hws : wb + prec ≤ sb) (m : Model)
    (hm : Model.Coherent prec m) (w hq1 : Nat) (q1 r : List Nat) (hr : Nat)
    (hT : 2 ^ (sb - wb - prec) ≤ hr) (hU : hr < 2 ^ (sb - prec))
    (qv : Nat) (hqvdef : (if prec = wb then w else w % 2 ^ prec) = qv)
    (hqv : qv < 2 ^ prec) (s : Nat) (c' : ChainCoder)
    (hct : chainDecodeTail wb sb prec m w hq1 q1 r hr = (s, c')) :
    c'.quantiles = q1 ∧ c'.hq = hq1 ∧
    2 ^ (sb - wb - prec) ≤ c'.hr ∧ c'.hr < 2 ^ (sb - prec) ∧
    ∃ dr, c'.remainders = r ++ dr ∧
      ∀ Z Y, ChainCoder.encodeSymbol wb sb prec m s ⟨Z, Y ++ dr, hq1, c'.hr⟩ =
        .ok (if prec ≠ wb ∧ hq1 < 2 ^ (wb - prec) then
              ⟨Z, Y, hq1 <<< prec % 2 ^ wb ||| qv, hr⟩
            else
              ⟨Z ++ [if prec = wb then qv else hq1 <<< prec % 2 ^ wb ||| qv],
                Y, if prec = wb then hq1 else hq1 >>> (wb - prec), hr⟩) := by
  simp only [chainDecodeTail] at hct
  rw [hqvdef] at hct
  obtain ⟨hle, hltq, hsum, hlcp⟩ := hm qv hqv
  have hp0 : 0 < (m.qf qv).2.2 := by omega
  have hple : (m.qf qv).2.2 ≤ 2 ^ prec := by omega
  have hpowsp : 2 ^ (sb - prec) * 2 ^ prec = 2 ^ sb := by
    rw [← pow_add]
    congr 1
    omega
  have hpowT : 2 ^ (sb - wb - prec) * 2 ^ wb = 2 ^ (sb - prec) := by
    rw [← pow_add]
    congr 1
    omega
  have hA : (hr + 1) * (m.qf qv).2.2 ≤ 2 ^ (sb - prec) * (m.qf qv).2.2 :=
    Nat.mul_le_mul_right _ (by omega)
  have hB : 2 ^ (sb - prec) * (m.qf qv).2.2 ≤ 2 ^ (sb - prec) * 2 ^ prec :=
    Nat.mul_le_mul_left _ hple
  have hD : (hr + 1) * (m.qf qv).2.2 = hr * (m.qf qv).2.2 + (m.qf qv).2.2 := by
    ring
  have hno : hr * (m.qf qv).2.2 + (qv - (m.qf qv).2.1) < 2 ^ sb := by omega
  have hTlow : 2 ^ (sb - wb - prec) * (m.qf qv).2.2 ≤ hr * (m.qf qv).2.2 :=
    Nat.mul_le_mul_right _ hT
  have hT1 : 2 ^ (sb - wb - prec) ≤ 2 ^ (sb - wb - prec) * (m.qf qv).2.2 :=
    Nat.le_mul_of_pos_right _ hp0
  have hshp : (m.qf qv).2.2 <<< (sb - wb - prec) % 2 ^ sb =
      (m.qf qv).2.2 * 2 ^ (sb - wb - prec) := by
    rw [Nat.shiftLeft_eq]
    apply Nat.mod_eq_of_lt
    have h1 : (m.qf qv).2.2 * 2 ^ (sb - wb - prec) ≤
        2 ^ prec * 2 ^ (sb - wb - prec) := Nat.mul_le_mul_right _ hple
    have h2 : 2 ^ prec * 2 ^ (sb - wb - prec) = 2 ^ (sb - wb) := by
      rw [← pow_add]
      congr 1
      omega
    have h3 : 2 ^ (sb - wb) < 2 ^ sb :=
      Nat.pow_lt_pow_right (by norm_num) (by omega)
    omega
  have hcommT : (m.qf qv).2.2 * 2 ^ (sb - wb - prec) =
      2 ^ (sb - wb - prec) * (m.qf qv).2.2 := by ring
  rw [Nat.mod_eq_of_lt hno] at hct
  by_cases hflush :
      2 ^ (sb - prec) ≤ hr * (m.qf qv).2.2 + (qv - (m.qf qv).2.1)
  · rw [if_pos hflush] at hct
    injection hct with h1 h2
    subst h1
    subst h2
    refine ⟨rfl, rfl, ?_, ?_, [(hr * (m.qf qv).2.2 + (qv - (m.qf qv).2.1)) % 2 ^ wb], rfl, ?_⟩
    · show 2 ^ (sb - wb - prec) ≤
        (hr * (m.qf qv).2.2 + (qv - (m.qf qv).2.1)) >>> wb
      rw [Nat.shiftRight_eq_div_pow,
        Nat.le_div_iff_mul_le (Nat.two_pow_pos wb)]
      omega
    · show (hr * (m.qf qv).2.2 + (qv - (m.qf qv).2.1)) >>> wb < 2 ^ (sb - prec)
      rw [Nat.shiftRight_eq_div_pow,
        Nat.div_lt_iff_lt_mul (Nat.two_pow_pos wb)]
      have h4 : 2 ^ (sb - prec) * 2 ^ prec ≤ 2 ^ (sb - prec) * 2 ^ wb :=
        Nat.mul_le_mul_left _ (Nat.pow_le_pow_right (by norm_num) hpw)
      omega
    · intro Z Y
      rw [chainEncodeSymbol_eq_of_lcp wb sb prec m _ _ _ _ hlcp]
      dsimp only
      rw [hshp]
      have htest : (hr * (m.qf qv).2.2 + (qv - (m.qf qv).2.1)) >>> wb <
          (m.qf qv).2.2 * 2 ^ (sb - wb - prec) := by
        rw [Nat.shiftRight_eq_div_pow,
          Nat.div_lt_iff_lt_mul (Nat.two_pow_pos wb)]
        have h1 : (m.qf qv).2.2 * 2 ^ (sb - wb - prec) * 2 ^ wb =
            (m.qf qv).2.2 * 2 ^ (sb - prec) := by
          rw [Nat.mul_assoc, hpowT]
        have h2 : 2 ^ (sb - prec) * (m.qf qv).2.2 =
            (m.qf qv).2.2 * 2 ^ (sb - prec) := by ring
        omega
      rw [if_pos htest, vecPop_append]
      show Except.ok (chainEncodeTail wb sb prec (m.qf qv).2.1 (m.qf qv).2.2
        ((hr * (m.qf qv).2.2 + (qv - (m.qf qv).2.1)) >>> wb <<< wb % 2 ^ sb |||
          (hr * (m.qf qv).2.2 + (qv - (m.qf qv).2.1)) % 2 ^ wb) Z Y hq1) = _
      rw [shiftRecompose sb wb _ hno]
      rw [chainEncodeTail_recover wb sb prec _ _ qv hr Z Y hq1 hle (by omega)]
  · rw [if_neg hflush] at hct
    injection hct with h1 h2
    subst h1
    subst h2
    refine ⟨rfl, rfl, ?_, ?_, [], by simp, ?_⟩
    · show 2 ^ (sb - wb - prec) ≤ hr * (m.qf qv).2.2 + (qv - (m.qf qv).2.1)
      omega
    · show hr * (m.qf qv).2.2 + (qv - (m.qf qv).2.1) < 2 ^ (sb - prec)
      omega
    intro Z Y
    rw [chainEncodeSymbol_eq_of_lcp wb sb prec m _ _ _ _ hlcp]
    dsimp only
    rw [hshp, List.append_nil]
    rw [if_neg (by omega)]
    rw [chainEncodeTail_recover wb sb prec _ _ qv hr Z Y hq1 hle (by omega)]

theorem chainDecodeSymbol_inv (wb sb prec : Nat) (hp : 0 < prec)
    (hpw : prec ≤ wb) (hws : wb + prec ≤ sb) (m : Model)
    (hm : Model.Coherent prec m) (q r : List Nat) (hq hr : Nat)
    (hWords : ∀ x ∈ q, x < 2 ^ wb)
    (hInv : ChainInv wb sb prec ⟨q, r, hq, hr⟩) (s : Nat) (c' : ChainCoder)
    (hdec : ChainCoder.decodeSymbol wb sb prec m ⟨q, r, hq, hr⟩ =
      .ok (s, c')) :
    ChainInv wb sb prec c' ∧
    ∃ dq dr, q = c'.quantiles ++ dq ∧ c'.remainders = r ++ dr ∧
      ∀ Z Y, ChainCoder.encodeSymbol wb sb prec m s
          ⟨Z, Y ++ dr, c'.hq, c'.hr⟩ = .ok ⟨Z ++ dq, Y, hq, hr⟩ := by
  obtain ⟨hq1le, hqlt, hrT, hrU⟩ :
      1 ≤ hq ∧ hq < 2 ^ wb ∧ 2 ^ (sb - wb - prec) ≤ hr ∧
        hr < 2 ^ (sb - prec) := hInv
  have hpp : 2 ^ (wb - prec) * 2 ^ prec = 2 ^ wb := by
    rw [← pow_add]
    congr 1
    omega
  simp only [ChainCoder.decodeSymbol] at hdec
  by_cases hcond : prec = wb ∨ hq < 2 ^ prec
  · rw [if_pos hcond] at hdec
    split at hdec
    · exact absurd hdec (by simp)
    · rename_i w q1 heq
      have hsrc : q = q1 ++ [w] := vecPop_eq_some heq
      have hwlt : w < 2 ^ wb := hWords w (by rw [hsrc]; simp)
      rw [Except.ok.injEq] at hdec
      have hqv : (if prec = wb then w else w % 2 ^ prec) < 2 ^ prec := by
        split
        · rename_i hh
          rw [hh]
          exact hwlt
        · exact Nat.mod_lt _ (Nat.two_pow_pos prec)
      obtain ⟨hcq, hch, hclow, hcup, dr, hcrem, henc⟩ :=
        chainDecodeTail_inv wb sb prec hp hpw hws m hm w
          (if prec = wb then hq else hq <<< (wb - prec) % 2 ^ wb ||| w >>> prec)
          q1 r hr hrT hrU _ rfl hqv s c' hdec
      by_cases hpq : prec = wb
      · have hHQ : (if prec = wb then hq
            else hq <<< (wb - prec) % 2 ^ wb ||| w >>> prec) = hq := if_pos hpq
        refine ⟨⟨?_, ?_, hclow, hcup⟩, [w], dr, ?_, hcrem, ?_⟩
        · rw [hch, hHQ]; exact hq1le
        · rw [hch, hHQ]; exact hqlt
        · rw [hcq, hsrc]
        · intro Z Y
          rw [hch]
          rw [henc Z Y]
          simp [hpq]
      · have hqsm : hq < 2 ^ prec := hcond.resolve_left hpq
        have e1 : hq <<< (wb - prec) % 2 ^ wb = hq * 2 ^ (wb - prec) := by
          rw [Nat.shiftLeft_eq]
          apply Nat.mod_eq_of_lt
          have h1 : hq * 2 ^ (wb - prec) < 2 ^ prec * 2 ^ (wb - prec) :=
            (Nat.mul_lt_mul_right (Nat.two_pow_pos _)).mpr hqsm
          have h2 : 2 ^ prec * 2 ^ (wb - prec) = 2 ^ wb := by
            rw [← pow_add]
            congr 1
            omega
          omega
        have e2 : w >>> prec < 2 ^ (wb - prec) := by
          rw [Nat.shiftRight_eq_div_pow,
            Nat.div_lt_iff_lt_mul (Nat.two_pow_pos prec)]
          omega
        have e3 : (if prec = wb then hq
            else hq <<< (wb - prec) % 2 ^ wb ||| w >>> prec) =
            hq * 2 ^ (wb - prec) + w >>> prec := by
          rw [if_neg hpq, e1]
          exact lorTwoPowMul _ _ _ e2
        have hHlow : 2 ^ (wb - prec) ≤ hq * 2 ^ (wb - prec) + w >>> prec :=
          le_trans (Nat.le_mul_of_pos_left _ (by omega)) (Nat.le_add_right _ _)
        have hHup : hq * 2 ^ (wb - prec) + w >>> prec < 2 ^ wb := by
          have h1 : (hq + 1) * 2 ^ (wb - prec) ≤ 2 ^ prec * 2 ^ (wb - prec) :=
            Nat.mul_le_mul_right _ (by omega)
          have h2 : (hq + 1) * 2 ^ (wb - prec) =
              hq * 2 ^ (wb - prec) + 2 ^ (wb - prec) := by ring
          have h3 : 2 ^ prec * 2 ^ (wb - prec) = 2 ^ wb := by
            rw [← pow_add]
            congr 1
            omega
          omega
        refine ⟨⟨?_, ?_, hclow, hcup⟩, [w], dr, ?_, hcrem, ?_⟩
        · rw [hch, e3]
          have := Nat.two_pow_pos (wb - prec)
          omega
        · rw [hch, e3]
          omega
        · rw [hcq, hsrc]
        · intro Z Y
          rw [hch]
          rw [henc Z Y]
          have e3r : hq <<< (wb - prec) % 2 ^ wb ||| w >>> prec =
              hq * 2 ^ (wb - prec) + w >>> prec := by
            rw [e1]
            exact lorTwoPowMul _ _ _ e2
          simp only [if_neg hpq]
          rw [if_neg (by intro hco; rw [e3r] at hco; omega)]
          have hword : (hq <<< (wb - prec) % 2 ^ wb ||| w >>> prec) <<< prec %
                2 ^ wb ||| w % 2 ^ prec = w := by
            have hkey : (hq * 2 ^ (wb - prec) + w >>> prec) * 2 ^ prec =
                2 ^ wb * hq + w >>> prec * 2 ^ prec := by
              calc (hq * 2 ^ (wb - prec) + w >>> prec) * 2 ^ prec
                  = hq * (2 ^ (wb - prec) * 2 ^ prec) +
                    w >>> prec * 2 ^ prec := by ring
                _ = 2 ^ wb * hq + w >>> prec * 2 ^ prec := by rw [hpp]; ring
            rw [e3r, Nat.shiftLeft_eq, hkey, Nat.mul_add_mod,
              ← Nat.shiftLeft_eq]
            exact shiftRecompose wb prec w hwlt
          have hback : (hq <<< (wb - prec) % 2 ^ wb ||| w >>> prec) >>>
                (wb - prec) = hq := by
            rw [e3r, Nat.shiftRight_eq_div_pow, Nat.add_comm,
              Nat.add_mul_div_right _ _ (Nat.two_pow_pos _),
              Nat.div_eq_of_lt e2]
            omega
          rw [hword, hback]
  · rw [if_neg hcond] at hdec
    push_neg at hcond
    obtain ⟨hpq, hqge⟩ := hcond
    rw [Except.ok.injEq] at hdec
    have hqv : hq % 2 ^ prec < 2 ^ prec := Nat.mod_lt _ (Nat.two_pow_pos prec)
    obtain ⟨hcq, hch, hclow, hcup, dr, hcrem, henc⟩ :=
      chainDecodeTail_inv wb sb prec hp hpw hws m hm hq (hq >>> prec) q r hr
        hrT hrU (hq % 2 ^ prec) (by rw [if_neg hpq]) hqv s c' hdec
    have e1 : 1 ≤ hq >>> prec := by
      rw [Nat.shiftRight_eq_div_pow, Nat.le_div_iff_mul_le (Nat.two_pow_pos prec)]
      omega
    have e2 : hq >>> prec < 2 ^ (wb - prec) := by
      rw [Nat.shiftRight_eq_div_pow,
        Nat.div_lt_iff_lt_mul (Nat.two_pow_pos prec)]
      omega
    refine ⟨⟨?_, ?_, hclow, hcup⟩, [], dr, ?_, hcrem, ?_⟩
    · rw [hch]; exact e1
    · rw [hch]
      have h1 : 2 ^ (wb - prec) ≤ 2 ^ wb :=
        Nat.pow_le_pow_right (by norm_num) (by omega)
      omega
    · rw [hcq]; simp
    · intro Z Y
      rw [hch]
      rw [henc Z Y]
      rw [if_pos ⟨hpq, e2⟩]
      have hhead : hq >>> prec <<< prec % 2 ^ wb ||| hq % 2 ^ prec = hq :=
        shiftRecompose wb prec hq hqlt
      rw [hhead]
      simp

theorem chainEncodeSeq_append (wb sb prec : Nat) :
    ∀ l1 l2 (c : ChainCoder),
      ChainCoder.encodeSeq wb sb prec (l1 ++ l2) c =
        match ChainCoder.encodeSeq wb sb prec l1 c with
        | .error e => .error e
        | .ok c1 => ChainCoder.encodeSeq wb sb prec l2 c1 := by
  intro l1
  induction l1 with
  | nil => intro l2 c; rfl
  | cons pr l1 ih =>
    intro l2 c
    rcases pr with ⟨s, m⟩
    cases he : ChainCoder.encodeSymbol wb sb prec m s c with
    | error e => simp [ChainCoder.encodeSeq, he]
    | ok c1 => simp [ChainCoder.encodeSeq, he, ih]

theorem chainDecodeSeq_inv (wb sb prec : Nat) (hp : 0 < prec)
    (hpw : prec ≤ wb) (hws : wb + prec ≤ sb) :
    ∀ (M : List Model) (q r : List Nat) (hq hr : Nat) (σ : List Nat)
      (cn : ChainCoder),
      (∀ m ∈ M, Model.Coherent prec m) → (∀ x ∈ q, x < 2 ^ wb) →
      ChainInv wb sb prec ⟨q, r, hq, hr⟩ →
      ChainCoder.decodeSeq wb sb prec M ⟨q, r, hq, hr⟩ = .ok (σ, cn) →
      ChainInv wb sb prec cn ∧
      ∃ dq dr, q = cn.quantiles ++ dq ∧ cn.remainders = r ++ dr ∧
        ∀ Z Y, ChainCoder.encodeSeq wb sb prec (σ.zip M).reverse
            ⟨Z, Y ++ dr, cn.hq, cn.hr⟩ = .ok ⟨Z ++ dq, Y, hq, hr⟩ := by
  intro M
  induction M with
  | nil =>
    intro q r hq hr σ cn hcoh hwords hInv hdec
    simp only [ChainCoder.decodeSeq] at hdec
    rw [Except.ok.injEq, Prod.mk.injEq] at hdec
    obtain ⟨h1, h2⟩ := hdec
    subst h1
    subst h2
    refine ⟨hInv, [], [], by simp, by simp, ?_⟩
    intro Z Y
    simp [ChainCoder.encodeSeq]
  | cons m M ih =>
    intro q r hq hr σ cn hcoh hwords hInv hdec
    simp only [ChainCoder.decodeSeq] at hdec
    split at hdec
    · exact absurd hdec (by simp)
    · rename_i s c1 hstep
      split at hdec
      · exact absurd hdec (by simp)
      · rename_i σ1 c2 hrest
        rw [Except.ok.injEq, Prod.mk.injEq] at hdec
        obtain ⟨h1, h2⟩ := hdec
        subst h1
        subst h2
        obtain ⟨hInv1, dq1, dr1, hsq1, hsr1, henc1⟩ :=
          chainDecodeSymbol_inv wb sb prec hp hpw hws m (hcoh m (by simp))
            q r hq hr hwords hInv s c1 hstep
        obtain ⟨hInv2, dq2, dr2, hsq2, hsr2, henc2⟩ :=
          ih c1.quantiles c1.remainders c1.hq c1.hr σ1 c2
            (fun mm hmm => hcoh mm (by simp [hmm]))
            (fun x hx => hwords x (by rw [hsq1]; exact List.mem_append_left _ hx))
            hInv1 hrest
        refine ⟨hInv2, dq2 ++ dq1, dr1 ++ dr2, ?_, ?_, ?_⟩
        · rw [hsq1, hsq2, List.append_assoc]
        · rw [hsr2, hsr1, List.append_assoc]
        · intro Z Y
          rw [show ((s :: σ1).zip (m :: M)).reverse =
            (σ1.zip M).reverse ++ [(s, m)] by simp]
          rw [chainEncodeSeq_append]
          rw [show Y ++ (dr1 ++ dr2) = (Y ++ dr1) ++ dr2 from
            (List.append_assoc _ _ _).symm]
          rw [henc2 Z (Y ++ dr1)]
          simp only [ChainCoder.encodeSeq]
          rw [henc1 (Z ++ dq2) Y]
          simp [List.append_assoc]

/-- **C1.** Chain coder round trip: for every quantiles input accepted by
`from_quantiles` and every model sequence, if `decode_symbol` once per model
yields `σ`, then re-encoding `σ` with the same models in reverse order
(`encode_symbols_reverse`) on a coder reconstructed by `from_remainders`
from the concatenated `into_remainders` output ends at a whole-word
boundary, `into_quantiles` succeeds, and the concatenation of the two
returned buffers (remainders part followed by quantiles part) equals the
original quantiles input. -/
theorem chain_coder_round_trip (wb sb prec : Nat) (hp : 0 < prec)
    (hpw : prec ≤ wb) (hws : wb + prec ≤ sb)
    (input : List Nat) (hin : ∀ x ∈ input, x < 2 ^ wb)
    (M : List Model) (hM : ∀ m ∈ M, Model.Coherent prec m)
    (c0 : ChainCoder)
    (h0 : ChainCoder.fromQuantiles wb sb prec input = some c0)
    (σ : List Nat) (cn : ChainCoder)
    (hdec : ChainCoder.decodeSeq wb sb prec M c0 = .ok (σ, cn)) :
    ∃ c2 cf qp qs,
      ChainCoder.fromRemainders wb sb prec
        ((ChainCoder.intoRemainders wb cn).1 ++
          (ChainCoder.intoRemainders wb cn).2) = some c2 ∧
      ChainCoder.encodeSymbolsReverse wb sb prec (σ.zip M) c2 = .ok cf ∧
      cf.isWhole = true ∧
      ChainCoder.intoQuantiles wb cf = some (qp, qs) ∧
      qp ++ qs = input := by
  have hw0 : 0 < wb := by omega
  simp only [ChainCoder.fromQuantiles] at h0
  split at h0
  · exact absurd h0 (by simp)
  · rename_i w rest heq1
    split at h0
    · exact absurd h0 (by simp)
    · rename_i hwne
      split at h0
      · exact absurd h0 (by simp)
      · rename_i hr0 rest1 heq2
        rw [Option.some.injEq] at h0
        subst h0
        have hinput : input = rest ++ [w] := vecPop_eq_some heq1
        have hwin : w < 2 ^ wb := hin w (by rw [hinput]; simp)
        have hrestin : ∀ x ∈ rest, x < 2 ^ wb := fun x hx =>
          hin x (by rw [hinput]; simp [hx])
        have hwU : w < 2 ^ (sb - prec) :=
          lt_of_lt_of_le hwin (Nat.pow_le_pow_right (by norm_num) (by omega))
        obtain ⟨hT0, hU0, j0, hrest, hw0eq⟩ :=
          headsNewLoop_spec wb sb prec hw0 hws rest.length rest w hr0 rest1
            le_rfl hrestin hwU heq2
        have hrest1in : ∀ x ∈ rest1, x < 2 ^ wb := fun x hx =>
          hrestin x (by rw [hrest]; simp [hx])
        have hInv0 : ChainInv wb sb prec ⟨rest1, [], 1, hr0⟩ :=
          ⟨le_rfl, Nat.one_lt_two_pow_iff.mpr (by omega), hT0, hU0⟩
        obtain ⟨hInvn, dq, dr, hsq, hsr, henc⟩ :=
          chainDecodeSeq_inv wb sb prec hp hpw hws M rest1 [] 1 hr0 σ cn hM
            hrest1in hInv0 hdec
        obtain ⟨hqn1, hqnlt, hTn, hUn⟩ :
            1 ≤ cn.hq ∧ cn.hq < 2 ^ wb ∧ 2 ^ (sb - wb - prec) ≤ cn.hr ∧
              cn.hr < 2 ^ (sb - prec) := hInvn
        have hdr : cn.remainders = dr := by simpa using hsr
        obtain ⟨jn, wn, hfl, hwn, hwnpos, hwnlt⟩ :=
          flushState_top wb hw0 cn.hr (by
            have := Nat.two_pow_pos (sb - wb - prec)
            omega)
        refine ⟨⟨[], cn.quantiles ++ cn.remainders, cn.hq, cn.hr⟩,
          ⟨[] ++ dq, cn.quantiles, 1, hr0⟩, cn.quantiles,
          [] ++ dq ++ flushState wb hr0, ?_, ?_, ?_, ?_, ?_⟩
        · simp only [ChainCoder.intoRemainders]
          rw [hfl]
          have hshape : cn.quantiles ++
              (cn.remainders ++ (digitsLE wb jn cn.hr ++ [wn]) ++ [cn.hq]) =
              (cn.quantiles ++ cn.remainders ++ digitsLE wb jn cn.hr ++ [wn])
                ++ [cn.hq] := by
            simp [List.append_assoc]
          rw [hshape]
          simp only [ChainCoder.fromRemainders, vecPop_append]
          rw [if_neg (show ¬ cn.hq = 0 by omega)]
          rw [if_neg (show ¬ wn = 0 by omega)]
          rw [← hwn]
          rw [headsNewLoop_digits wb sb prec hw0 hws jn cn.hr
            (cn.quantiles ++ cn.remainders) hTn hUn]
        · unfold ChainCoder.encodeSymbolsReverse
          rw [hdr]
          exact henc [] cn.quantiles
        · rfl
        · simp [ChainCoder.intoQuantiles, ChainCoder.isWhole]
        · have hflush0 : flushState wb hr0 = digitsLE wb j0 hr0 ++ [w] := by
            rw [flushState_decompose wb hw0 j0 hr0 (by rw [hw0eq]; exact hwne)]
            rw [hw0eq]
            rw [flushState_small wb w hw0 (by omega) hwin]
          rw [hflush0, hinput, hrest, hsq]
          simp [List.append_assoc]

/-- Witness for C1 at `Word = u2`, `State = u4`, `PRECISION = 2`: input
`[1, 3]`, one symbol decoded with the uniform model and re-encoded. -/
theorem chain_coder_round_trip_witness :
    (0 < 2 ∧ 2 ≤ 2 ∧ 2 + 2 ≤ 4 ∧ (∀ x ∈ [1, 3], x < 2 ^ 2) ∧
      (∀ m ∈ [mUnif], Model.Coherent 2 m) ∧
      ChainCoder.fromQuantiles 2 4 2 [1, 3] = some ⟨[1], [], 1, 3⟩ ∧
      ChainCoder.decodeSeq 2 4 2 [mUnif] ⟨[1], [], 1, 3⟩ =
        .ok ([0], ⟨[], [3], 1, 1⟩)) ∧
    (∃ c2 cf qp qs,
      ChainCoder.fromRemainders 2 4 2
        ((ChainCoder.intoRemainders 2 ⟨[], [3], 1, 1⟩).1 ++
          (ChainCoder.intoRemainders 2 ⟨[], [3], 1, 1⟩).2) = some c2 ∧
      ChainCoder.encodeSymbolsReverse 2 4 2 ([0].zip [mUnif]) c2 = .ok cf ∧
      cf.isWhole = true ∧
      ChainCoder.intoQuantiles 2 cf = some (qp, qs) ∧
      qp ++ qs = [1, 3]) := by
  have hM : ∀ m ∈ [mUnif], Model.Coherent 2 m := by
    intro m hm
    simp at hm
    rw [hm]
    unfold Model.Coherent
    decide
  have h0 : ChainCoder.fromQuantiles 2 4 2 [1, 3] = some ⟨[1], [], 1, 3⟩ := by
    have hload : headsNewLoop 2 4 2 3 [1] = some (3, [1]) := by
      rw [headsNewLoop]
      norm_num
    simp only [ChainCoder.fromQuantiles]
    norm_num [vecPop, hload]
  have hdec : ChainCoder.decodeSeq 2 4 2 [mUnif] ⟨[1], [], 1, 3⟩ =
      .ok ([0], ⟨[], [3], 1, 1⟩) := by rfl
  exact ⟨⟨by decide, by decide, by decide, by decide, hM, h0, hdec⟩,
    chain_coder_round_trip 2 4 2 (by decide) (by decide) (by decide) [1, 3]
      (by decide) [mUnif] hM ⟨[1], [], 1, 3⟩ h0 [0] ⟨[], [3], 1, 1⟩ hdec⟩

-- ===================== C5/C10: Huffman coding lemmas =====================

theorem getD_set_self {α} (l : List α) (i : Nat) (a dflt : α)
    (h : i < l.length) : (l.set i a).getD i dflt = a := by
  rw [List.getD_eq_getElem?_getD, List.getElem?_set_self (by simpa using h)]
  rfl

theorem getD_set_ne {α} (l : List α) (i j : Nat) (a dflt : α) (h : i ≠ j) :
    (l.set i a).getD j dflt = l.getD j dflt := by
  rw [List.getD_eq_getElem?_getD, List.getElem?_set_ne h,
    ← List.getD_eq_getElem?_getD]

theorem prefixGetD {α} (l1 l2 : List α) (k : Nat) (dflt : α) (h : l1 <+: l2)
    (hk : k < l1.length) : l2.getD k dflt = l1.getD k dflt := by
  obtain ⟨t, rfl⟩ := h
  rw [List.getD_eq_getElem?_getD, List.getD_eq_getElem?_getD,
    List.getElem?_append, if_pos hk]

theorem getD_append_at {α} (l : List α) (x dflt : α) :
    (l ++ [x]).getD l.length dflt = x := by
  rw [List.getD_eq_getElem?_getD, List.getElem?_append_right le_rfl]
  simp

theorem getD_replicate (k j : Nat) : (List.replicate k 0).getD j 0 = 0 := by
  rcases lt_or_le j k with h | h
  · rw [List.getD_eq_getElem?_getD, List.getElem?_replicate]
    simp [h]
  · rw [List.getD_eq_getElem?_getD, List.getElem?_eq_none (by simpa using h)]
    rfl

theorem shl1_shr (a : Nat) : a <<< 1 >>> 1 = a := by
  rw [Nat.shiftLeft_eq, Nat.shiftRight_eq_div_pow]
  simp

theorem shl1_or_eq (a : Nat) : a <<< 1 ||| 1 = a * 2 + 1 := by
  rw [Nat.shiftLeft_eq]
  have h := lorTwoPowMul a 1 1 (by norm_num)
  simpa using h

theorem shl1_or_shr (a : Nat) : (a <<< 1 ||| 1) >>> 1 = a := by
  rw [shl1_or_eq, Nat.shiftRight_eq_div_pow]
  simp
  omega

theorem shl1_and (a : Nat) : a <<< 1 &&& 1 = 0 := by
  rw [Nat.shiftLeft_eq, Nat.and_one_is_mod]
  omega

theorem shl1_or_and (a : Nat) : (a <<< 1 ||| 1) &&& 1 = 1 := by
  rw [shl1_or_eq, Nat.and_one_is_mod]
  omega

theorem shl1_ne (a : Nat) (h : 0 < a) : a <<< 1 ≠ 0 := by
  rw [Nat.shiftLeft_eq]
  simp
  omega

theorem shl1_or_ne (a : Nat) : a <<< 1 ||| 1 ≠ 0 := by
  rw [shl1_or_eq]
  omega

theorem popMin_of_ne_nil (l : List (Nat × Nat)) (h : l ≠ []) :
    ∃ m, popMin l = some (m, l.erase m) ∧ m ∈ l := by
  rcases l with _ | ⟨x, xs⟩
  · exact absurd rfl h
  · have hmem : ∀ ys (z : Nat × Nat),
        ys.foldl (fun a b => if hpLe a b then a else b) z ∈ z :: ys := by
      intro ys
      induction ys with
      | nil => intro z; simp
      | cons y ys ih =>
        intro z
        rw [List.foldl_cons]
        have h1 := ih (if hpLe z y then z else y)
        rcases List.mem_cons.mp h1 with h2 | h2
        · rw [h2]
          split
          · simp
          · simp
        · exact List.mem_cons.mpr (Or.inr (List.mem_cons.mpr (Or.inr h2)))
    exact ⟨_, rfl, hmem xs x⟩

theorem pathTo_transfer (e e' : List Nat)
    (hkeep : ∀ x, e.getD x 0 ≠ 0 → e'.getD x 0 = e.getD x 0) :
    ∀ i r code, PathTo e i r code → PathTo e' i r code := by
  intro i r code hp
  induction hp with
  | nil j => exact .nil j
  | cons i r code hne hrec ih =>
    have he : e'.getD i 0 = e.getD i 0 := hkeep i hne
    have h1 : e'.getD i 0 ≠ 0 := by rw [he]; exact hne
    have h2 : PathTo e' (e'.getD i 0 >>> 1) r code := by rw [he]; exact ih
    have h3 := PathTo.cons i r code h1 h2
    rw [he] at h3
    exact h3

theorem pathTo_extend (e : List Nat) :
    ∀ i r code, PathTo e i r code → e.getD r 0 ≠ 0 →
      PathTo e i (e.getD r 0 >>> 1) ((e.getD r 0 &&& 1 != 0) :: code) := by
  intro i r code hp
  induction hp with
  | nil j =>
    intro hne
    have h1 := PathTo.cons j (e.getD j 0 >>> 1) [] hne (.nil _)
    simpa using h1
  | cons i r code hne0 hrec ih =>
    intro hner
    have h1 := PathTo.cons i (e.getD r 0 >>> 1)
      ((e.getD r 0 &&& 1 != 0) :: code) hne0 (ih hner)
    simpa using h1

theorem pathTo_len (e : List Nat)
    (hmono : ∀ i, e.getD i 0 ≠ 0 → i < e.getD i 0 >>> 1) :
    ∀ i r code, PathTo e i r code → code.length + i ≤ r := by
  intro i r code hp
  induction hp with
  | nil j => simp
  | cons i r code hne hrec ih =>
    have := hmono i hne
    simp only [List.length_append, List.length_cons, List.length_nil]
    omega

theorem encodeWalk_of_path (e : List Nat) :
    ∀ code i r, PathTo e i r code → e.getD r 0 = 0 →
      ∀ acc fuel, code.length ≤ fuel →
        encodeWalk e fuel i acc = some (code ++ acc) := by
  intro code i r hp
  induction hp with
  | nil j =>
    intro hr acc fuel hlen
    cases fuel with
    | zero =>
      simp only [encodeWalk]
      rw [if_pos hr]
      simp
    | succ f =>
      simp only [encodeWalk]
      rw [if_pos hr]
      simp
  | cons i r1 code hne hrec ih =>
    intro hr acc fuel hlen
    cases fuel with
    | zero => simp at hlen
    | succ f =>
      simp only [encodeWalk]
      rw [if_neg hne]
      rw [ih hr ((e.getD i 0 &&& 1 != 0) :: acc) f (by
        simp only [List.length_append, List.length_cons, List.length_nil]
          at hlen
        omega)]
      rw [List.append_cons]

theorem decodeFrom_total (D : List (Nat × Nat)) (n : Nat)
    (hch : ∀ k, k < D.length →
      (D.getD k (0, 0)).1 < n + k ∧ (D.getD k (0, 0)).2 < n + k) :
    ∀ idx bits, idx < n + D.length → idx + 1 - n ≤ bits.length →
      ∃ s rest, decodeFrom D n idx bits = some (s, rest) ∧ s < n ∧
        bits.length - rest.length ≤ idx + 1 - n ∧
        rest.length ≤ bits.length := by
  intro idx
  induction idx using Nat.strong_induction_on with
  | _ idx ih =>
    intro bits hidx hbits
    by_cases hlt : idx < n
    · refine ⟨idx, bits, ?_, hlt, by omega, le_rfl⟩
      cases bits with
      | nil =>
        rw [decodeFrom]
        rw [if_pos hlt]
      | cons b rest =>
        rw [decodeFrom]
        rw [if_pos hlt]
    · push_neg at hlt
      cases bits with
      | nil =>
        simp at hbits
        omega
      | cons b rest =>
        have hk : idx - n < D.length := by omega
        obtain ⟨h1, h2⟩ := hch (idx - n) hk
        set child := if b then (D.getD (idx - n) (0, 0)).2
          else (D.getD (idx - n) (0, 0)).1 with hchild
        have hchlt : child < idx := by
          rw [hchild]
          split
          · omega
          · omega
        have hch2 : child < n + D.length := by omega
        have hble : child + 1 - n ≤ rest.length := by
          simp at hbits
          omega
        obtain ⟨s, rest1, hEq, hs, hcons, hle⟩ := ih child hchlt rest hch2 hble
        refine ⟨s, rest1, ?_, hs, ?_, ?_⟩
        · rw [decodeFrom]
          rw [if_neg (by omega)]
          rw [← hchild]
          exact hEq
        · simp only [List.length_cons]
          omega
        · simp only [List.length_cons]
          omega

theorem huffLoopEnc_step (fuel : Nat) (h h1 h2 : List (Nat × Nat))
    (e : List Nat) (next p0 i0 p1 i1 : Nat)
    (hp0 : popMin h = some ((p0, i0), h1))
    (hp1 : popMin h1 = some ((p1, i1), h2)) :
    huffLoopEnc (fuel + 1) h e next =
      huffLoopEnc fuel ((p0 + p1, next) :: h2)
        ((e.set i0 (next <<< 1)).set i1 (next <<< 1 ||| 1)) (next + 1) := by
  simp only [huffLoopEnc, hp0, hp1]

theorem huffLoopEnc_last (fuel : Nat) (h h1 : List (Nat × Nat))
    (e : List Nat) (next p0 i0 : Nat)
    (hp0 : popMin h = some ((p0, i0), h1)) (hp1 : popMin h1 = none) :
    huffLoopEnc (fuel + 1) h e next = e := by
  simp only [huffLoopEnc, hp0, hp1]

theorem huffLoopDec_step (fuel : Nat) (h h1 h2 : List (Nat × Nat))
    (d : List (Nat × Nat)) (next p0 i0 p1 i1 : Nat)
    (hp0 : popMin h = some ((p0, i0), h1))
    (hp1 : popMin h1 = some ((p1, i1), h2)) :
    huffLoopDec (fuel + 1) h d next =
      huffLoopDec fuel ((p0 + p1, next) :: h2) (d ++ [(i0, i1)]) (next + 1) := by
  simp only [huffLoopDec, hp0, hp1]

theorem huffLoopDec_last (fuel : Nat) (h h1 : List (Nat × Nat))
    (d : List (Nat × Nat)) (next p0 i0 : Nat)
    (hp0 : popMin h = some ((p0, i0), h1)) (hp1 : popMin h1 = none) :
    huffLoopDec (fuel + 1) h d next = d := by
  simp only [huffLoopDec, hp0, hp1]

theorem huffInv_final (n : Nat) (h : List (Nat × Nat)) (e : List Nat)
    (d : List (Nat × Nat)) (hinv : HuffInv n h e d) (hone : h.length = 1) :
    e.length = 2 * n - 1 ∧ d.length = n - 1 ∧
    (∀ i, e.getD i 0 ≠ 0 →
      i < e.getD i 0 >>> 1 ∧ n ≤ e.getD i 0 >>> 1 ∧
        e.getD i 0 >>> 1 < 2 * n - 1) ∧
    (∀ k, k < d.length →
      (d.getD k (0, 0)).1 < n + k ∧ (d.getD k (0, 0)).2 < n + k) ∧
    e.getD (2 * n - 2) 0 = 0 ∧
    (∀ s, s < n → ∃ code, PathTo e s (2 * n - 2) code ∧
      ∀ rest, decodeFrom d n (2 * n - 2) (code ++ rest) = some (s, rest)) := by
  obtain ⟨hA, hB, hC, hD, hE, hF, hG, hH, hI, hJ, hK⟩ := hinv
  obtain ⟨x, hx⟩ := List.length_eq_one.mp hone
  have hdl : d.length = n - 1 := by omega
  have hn1 : 1 ≤ n := by omega
  have hroot : x.2 = 2 * n - 2 := by
    have := hJ hone x (by rw [hx]; simp)
    omega
  refine ⟨hA, hdl, ?_, ?_, ?_, ?_⟩
  · intro i hi
    obtain ⟨h1, h2, h3⟩ := hH i hi
    exact ⟨h1, h2, by omega⟩
  · intro k hk
    exact hI k hk
  · have h1 := hF x (by rw [hx]; simp)
    rw [← hroot]
    exact h1
  · intro s hs
    obtain ⟨r, code, ⟨p, hpr⟩, hpath, hdecs⟩ := hK s hs
    have hr : r = 2 * n - 2 := by
      rw [hx] at hpr
      simp at hpr
      have h1 := congrArg Prod.snd hpr
      simp at h1
      omega
    subst hr
    exact ⟨code, hpath, fun rest => hdecs d rest List.prefix_rfl⟩

theorem huffLoop_spec (n : Nat) :
    ∀ fuel h e d, HuffInv n h e d → h.length ≤ fuel + 1 →
      ∃ E D, huffLoopEnc fuel h e (n + d.length) = E ∧
        huffLoopDec fuel h d (n + d.length) = D ∧
        E.length = 2 * n - 1 ∧ D.length = n - 1 ∧ d <+: D ∧
        (∀ i, E.getD i 0 ≠ 0 →
          i < E.getD i 0 >>> 1 ∧ n ≤ E.getD i 0 >>> 1 ∧
            E.getD i 0 >>> 1 < 2 * n - 1) ∧
        (∀ k, k < D.length →
          (D.getD k (0, 0)).1 < n + k ∧ (D.getD k (0, 0)).2 < n + k) ∧
        E.getD (2 * n - 2) 0 = 0 ∧
        (∀ s, s < n → ∃ code, PathTo E s (2 * n - 2) code ∧
          ∀ rest, decodeFrom D n (2 * n - 2) (code ++ rest) = some (s, rest)) := by
  intro fuel
  induction fuel with
  | zero =>
    intro h e d hinv hlen
    have hone : h.length = 1 := by
      obtain ⟨_, _, hC, _⟩ := hinv
      omega
    obtain ⟨hA, hdl, hmono, hkids, hrz, hrt⟩ := huffInv_final n h e d hinv hone
    exact ⟨e, d, rfl, rfl, hA, hdl, List.prefix_rfl, hmono, hkids, hrz, hrt⟩
  | succ fuel ih =>
    intro h e d hinv hlen
    by_cases hone : h.length = 1
    · obtain ⟨x, hx⟩ := List.length_eq_one.mp hone
      have hpop : popMin h = some (x, []) := by
        rw [hx]
        simp [popMin, List.erase_cons_head]
      have hEeq := huffLoopEnc_last fuel h [] e (n + d.length) x.1 x.2 hpop rfl
      have hDeq := huffLoopDec_last fuel h [] d (n + d.length) x.1 x.2 hpop rfl
      obtain ⟨hA, hdl, hmono, hkids, hrz, hrt⟩ := huffInv_final n h e d hinv hone
      exact ⟨e, d, hEeq, hDeq, hA, hdl, List.prefix_rfl, hmono, hkids, hrz, hrt⟩
    · obtain ⟨hA, hB, hC, hD, hE, hF, hG, hH, hI, hJ, hK⟩ := hinv
      have h2len : 2 ≤ h.length := by omega
      obtain ⟨m0, hpop0, hm0⟩ := popMin_of_ne_nil h (by
        intro e0
        rw [e0] at h2len
        simp at h2len)
      have hh1len : (h.erase m0).length + 1 = h.length := by
        rw [List.length_erase_of_mem hm0]
        have := List.length_pos.mpr (List.ne_nil_of_mem hm0)
        omega
      obtain ⟨m1, hpop1, hm1⟩ := popMin_of_ne_nil (h.erase m0) (by
        intro e1
        rw [e1] at hh1len
        simp at hh1len
        omega)
      rcases m0 with ⟨p0, i0⟩
      rcases m1 with ⟨p1, i1⟩
      have hh2len : ((h.erase (p0, i0)).erase (p1, i1)).length + 1 =
          (h.erase (p0, i0)).length := by
        rw [List.length_erase_of_mem hm1]
        have := List.length_pos.mpr (List.ne_nil_of_mem hm1)
        omega
      have hnd : h.Nodup := hE.of_map _
      have hh1nd : (h.erase (p0, i0)).Nodup := hnd.erase _
      have hm1h : (p1, i1) ∈ h := List.mem_of_mem_erase hm1
      have hne10 : (p1, i1) ≠ (p0, i0) := ((List.Nodup.mem_erase_iff hnd).mp hm1).1
      have hi10 : i1 ≠ i0 := by
        intro he10
        exact hne10 (List.inj_on_of_nodup_map hE hm1h hm0 (by simpa using he10))
      have hi0lt : i0 < n + d.length := hD _ hm0
      have hi1lt : i1 < n + d.length := hD _ hm1h
      have hi0e : e.getD i0 0 = 0 := hF _ hm0
      have hi1e : e.getD i1 0 = 0 := hF _ hm1h
      have hd2 : d.length + 2 ≤ n := by omega
      have hmem2 : ∀ y ∈ (h.erase (p0, i0)).erase (p1, i1),
          y ∈ h ∧ y ≠ (p0, i0) ∧ y ≠ (p1, i1) := by
        intro y hy
        have h1 := (List.Nodup.mem_erase_iff hh1nd).mp hy
        have h2 := (List.Nodup.mem_erase_iff hnd).mp h1.2
        exact ⟨h2.2, h2.1, h1.1⟩
      have hsnd2 : ∀ y ∈ (h.erase (p0, i0)).erase (p1, i1),
          y.2 ≠ i0 ∧ y.2 ≠ i1 := by
        intro y hy
        obtain ⟨hyh, hy0, hy1⟩ := hmem2 y hy
        constructor
        · intro hhh
          exact hy0 (List.inj_on_of_nodup_map hE hyh hm0 (by simpa using hhh))
        · intro hhh
          exact hy1 (List.inj_on_of_nodup_map hE hyh hm1h (by simpa using hhh))
      have hi0len : i0 < e.length := by omega
      have hi1len : i1 < (e.set i0 ((n + d.length) <<< 1)).length := by
        rw [List.length_set]
        omega
      have hE0 : ((e.set i0 ((n + d.length) <<< 1)).set i1
          ((n + d.length) <<< 1 ||| 1)).getD i0 0 = (n + d.length) <<< 1 := by
        rw [getD_set_ne _ _ _ _ _ hi10, getD_set_self _ _ _ _ hi0len]
      have hE1 : ((e.set i0 ((n + d.length) <<< 1)).set i1
          ((n + d.length) <<< 1 ||| 1)).getD i1 0 =
          (n + d.length) <<< 1 ||| 1 :=
        getD_set_self _ _ _ _ hi1len
      have hEother : ∀ x, x ≠ i0 → x ≠ i1 →
          ((e.set i0 ((n + d.length) <<< 1)).set i1
            ((n + d.length) <<< 1 ||| 1)).getD x 0 = e.getD x 0 := by
        intro x hx0 hx1
        rw [getD_set_ne _ _ _ _ _ (fun hh => hx1 hh.symm),
          getD_set_ne _ _ _ _ _ (fun hh => hx0 hh.symm)]
      have hkeep : ∀ x, e.getD x 0 ≠ 0 →
          ((e.set i0 ((n + d.length) <<< 1)).set i1
            ((n + d.length) <<< 1 ||| 1)).getD x 0 = e.getD x 0 := by
        intro x hxne
        exact hEother x (fun hhh => hxne (hhh ▸ hi0e))
          (fun hhh => hxne (hhh ▸ hi1e))
      have hnew : HuffInv n
          ((p0 + p1, n + d.length) :: (h.erase (p0, i0)).erase (p1, i1))
          ((e.set i0 ((n + d.length) <<< 1)).set i1
            ((n + d.length) <<< 1 ||| 1))
          (d ++ [(i0, i1)]) := by
        refine ⟨?_, ?_, ?_, ?_, ?_, ?_, ?_, ?_, ?_, ?_, ?_⟩
        · simp [hA]
        · simp only [List.length_cons, List.length_append, List.length_nil]
          omega
        · simp
        · intro pi hpi
          simp only [List.length_append, List.length_cons, List.length_nil]
          rcases List.mem_cons.mp hpi with h1 | h1
          · rw [h1]
            omega
          · have := hD pi (hmem2 pi h1).1
            omega
        · simp only [List.map_cons, List.nodup_cons]
          constructor
          · intro hmem
            obtain ⟨y, hy, hy2⟩ := List.mem_map.mp hmem
            have := hD y (hmem2 y hy).1
            omega
          · exact List.Nodup.sublist
              (List.Sublist.map _ ((List.erase_sublist _ _).trans
                (List.erase_sublist _ _))) hE
        · intro pi hpi
          rcases List.mem_cons.mp hpi with h1 | h1
          · rw [h1]
            rw [hEother (n + d.length) (by omega) (by omega)]
            exact hG (n + d.length) le_rfl
          · obtain ⟨hs0, hs1⟩ := hsnd2 pi h1
            rw [hEother pi.2 hs0 hs1]
            exact hF pi (hmem2 pi h1).1
        · intro j hj
          simp only [List.length_append, List.length_cons, List.length_nil] at hj
          rw [hEother j (by omega) (by omega)]
          exact hG j (by omega)
        · intro i hi
          simp only [List.length_append, List.length_cons, List.length_nil]
          by_cases hii0 : i = i0
          · subst hii0
            rw [hE0] at hi ⊢
            rw [shl1_shr]
            omega
          · by_cases hii1 : i = i1
            · subst hii1
              rw [hE1] at hi ⊢
              rw [shl1_or_shr]
              omega
            · rw [hEother i hii0 hii1] at hi ⊢
              have := hH i hi
              omega
        · intro k hk
          simp only [List.length_append, List.length_cons, List.length_nil] at hk
          by_cases hkd : k < d.length
          · rw [prefixGetD d (d ++ [(i0, i1)]) k (0, 0)
              (List.prefix_append d _) hkd]
            exact hI k hkd
          · have hkeq : k = d.length := by omega
            subst hkeq
            rw [getD_append_at d (i0, i1) (0, 0)]
            exact ⟨by omega, by omega⟩
        · intro hlen1 pi hpi
          simp only [List.length_cons] at hlen1
          have hh2nil : (h.erase (p0, i0)).erase (p1, i1) = [] :=
            List.length_eq_zero.mp (by omega)
          rw [hh2nil] at hpi
          simp at hpi
          rw [hpi]
          simp only [List.length_append, List.length_cons, List.length_nil]
          omega
        · intro s hs
          obtain ⟨r, code, ⟨p, hpr⟩, hpath, hdecs⟩ := hK s hs
          have hpath' := pathTo_transfer e _ hkeep s r code hpath
          by_cases hri0 : r = i0
          · subst hri0
            have hext := pathTo_extend _ s r code hpath' (by
              rw [hE0]
              exact shl1_ne _ (by omega))
            rw [hE0, shl1_shr] at hext
            rw [show ((n + d.length) <<< 1 &&& 1 != 0) = false by
              rw [shl1_and]; rfl] at hext
            refine ⟨n + d.length, false :: code,
              ⟨p0 + p1, List.mem_cons_self _ _⟩, hext, ?_⟩
            intro dx rest hdx
            have hdxd : d <+: dx := (List.prefix_append d [(r, i1)]).trans hdx
            have hgd : dx.getD (n + d.length - n) (0, 0) = (r, i1) := by
              rw [show n + d.length - n = d.length by omega]
              rw [prefixGetD (d ++ [(r, i1)]) dx d.length (0, 0) hdx (by simp)]
              exact getD_append_at d (r, i1) (0, 0)
            rw [show (false :: code) ++ rest = false :: (code ++ rest) from rfl]
            rw [decodeFrom]
            rw [if_neg (by omega)]
            show decodeFrom dx n (dx.getD (n + d.length - n) (0, 0)).1
              (code ++ rest) = some (s, rest)
            rw [hgd]
            exact hdecs dx rest hdxd
          · by_cases hri1 : r = i1
            · subst hri1
              have hext := pathTo_extend _ s r code hpath' (by
                rw [hE1]
                exact shl1_or_ne _)
              rw [hE1, shl1_or_shr] at hext
              rw [show (((n + d.length) <<< 1 ||| 1) &&& 1 != 0) = true by
                rw [shl1_or_and]; rfl] at hext
              refine ⟨n + d.length, true :: code,
                ⟨p0 + p1, List.mem_cons_self _ _⟩, hext, ?_⟩
              intro dx rest hdx
              have hdxd : d <+: dx := (List.prefix_append d [(i0, r)]).trans hdx
              have hgd : dx.getD (n + d.length - n) (0, 0) = (i0, r) := by
                rw [show n + d.length - n = d.length by omega]
                rw [prefixGetD (d ++ [(i0, r)]) dx d.length (0, 0) hdx (by simp)]
                exact getD_append_at d (i0, r) (0, 0)
              rw [show (true :: code) ++ rest = true :: (code ++ rest) from rfl]
              rw [decodeFrom]
              rw [if_neg (by omega)]
              show decodeFrom dx n (dx.getD (n + d.length - n) (0, 0)).2
                (code ++ rest) = some (s, rest)
              rw [hgd]
              exact hdecs dx rest hdxd
            · refine ⟨r, code, ⟨p, ?_⟩, hpath', ?_⟩
              · have hne0 : (p, r) ≠ (p0, i0) := by
                  intro hhh
                  simp at hhh
                  exact hri0 hhh.2
                have hne1 : (p, r) ≠ (p1, i1) := by
                  intro hhh
                  simp at hhh
                  exact hri1 hhh.2
                exact List.mem_cons_of_mem _
                  ((List.mem_erase_of_ne hne1).mpr
                    ((List.mem_erase_of_ne hne0).mpr hpr))
              · intro dx rest hdx
                exact hdecs dx rest ((List.prefix_append d [(i0, i1)]).trans hdx)
      have hlen' : ((p0 + p1, n + d.length) ::
          (h.erase (p0, i0)).erase (p1, i1)).length ≤ fuel + 1 := by
        simp only [List.length_cons]
        omega
      obtain ⟨E, D, hEeq, hDeq, hElen, hDlen, hpfx, hmono, hkids, hrz, hrt⟩ :=
        ih _ _ _ hnew hlen'
      refine ⟨E, D, ?_, ?_, hElen, hDlen,
        (List.prefix_append d [(i0, i1)]).trans hpfx, hmono, hkids, hrz, hrt⟩
      · rw [huffLoopEnc_step fuel h _ _ e (n + d.length) p0 i0 p1 i1 hpop0 hpop1]
        rw [show n + d.length + 1 = n + (d ++ [(i0, i1)]).length by
          simp only [List.length_append, List.length_cons, List.length_nil]
          omega]
        exact hEeq
      · rw [huffLoopDec_step fuel h _ _ d (n + d.length) p0 i0 p1 i1 hpop0 hpop1]
        rw [show n + d.length + 1 = n + (d ++ [(i0, i1)]).length by
          simp only [List.length_append, List.length_cons, List.length_nil]
          omega]
        exact hDeq

theorem huffInv_init (w : List Nat) (hn : 0 < w.length) :
    HuffInv w.length (initHeap w) (List.replicate (2 * w.length - 1) 0) [] := by
  have hfst : ∀ t ∈ w.enum, t.1 < w.length := by
    intro t ht
    have h1 := List.mem_map_of_mem Prod.fst ht
    rw [List.enum_map_fst] at h1
    exact List.mem_range.mp h1
  refine ⟨?_, ?_, ?_, ?_, ?_, ?_, ?_, ?_, ?_, ?_, ?_⟩
  · simp
  · simp [initHeap]
  · simp only [initHeap, List.length_map, List.enum_length]
    omega
  · intro pi hpi
    simp only [List.length_nil, Nat.add_zero]
    obtain ⟨t, ht, rfl⟩ := List.mem_map.mp hpi
    exact hfst t ht
  · have heq : (initHeap w).map Prod.snd = List.range w.length := by
      rw [initHeap, List.map_map]
      rw [show Prod.snd ∘ (fun t : Nat × Nat => (t.2, t.1)) = Prod.fst from rfl]
      exact List.enum_map_fst w
    rw [heq]
    exact List.nodup_range _
  · intro pi hpi
    exact getD_replicate _ _
  · intro j hj
    exact getD_replicate _ _
  · intro i hi
    exact absurd (getD_replicate _ _) hi
  · intro k hk
    simp at hk
  · intro h1 pi hpi
    have hlen : (initHeap w).length = w.length := by simp [initHeap]
    obtain ⟨t, ht, rfl⟩ := List.mem_map.mp hpi
    have hf := hfst t ht
    show t.1 = w.length + ([] : List (Nat × Nat)).length - 1
    simp only [List.length_nil, Nat.add_zero]
    omega
  · intro s hs
    refine ⟨s, [], ⟨w.getD s 0, ?_⟩, .nil s, ?_⟩
    · have hs2 : s < w.enum.length := by simpa using hs
      have h2 : w.enum[s] = (s, w[s]) := List.getElem_enum w s hs2
      have h3 : w[s] = w.getD s 0 := (List.getD_eq_getElem w 0 hs).symm
      have h4 := List.getElem_mem hs2
      rw [h2, h3] at h4
      exact List.mem_map_of_mem _ h4
    · intro dx rest hdx
      cases rest with
      | nil =>
        show decodeFrom dx w.length s [] = some (s, [])
        rw [decodeFrom]
        rw [if_pos hs]
      | cons b rest =>
        rw [show ([] : List Bool) ++ (b :: rest) = b :: rest from rfl]
        rw [decodeFrom]
        rw [if_pos hs]

theorem fromProbabilities_spec (w : List Nat) (hn : 0 < w.length) :
    (EncoderHuffmanTree.fromProbabilities w).length = 2 * w.length - 1 ∧
    (DecoderHuffmanTree.fromProbabilities w).length = w.length - 1 ∧
    (∀ i, (EncoderHuffmanTree.fromProbabilities w).getD i 0 ≠ 0 →
      i < (EncoderHuffmanTree.fromProbabilities w).getD i 0 >>> 1 ∧
      w.length ≤ (EncoderHuffmanTree.fromProbabilities w).getD i 0 >>> 1 ∧
      (EncoderHuffmanTree.fromProbabilities w).getD i 0 >>> 1 <
        2 * w.length - 1) ∧
    (∀ k, k < (DecoderHuffmanTree.fromProbabilities w).length →
      ((DecoderHuffmanTree.fromProbabilities w).getD k (0, 0)).1 <
        w.length + k ∧
      ((DecoderHuffmanTree.fromProbabilities w).getD k (0, 0)).2 <
        w.length + k) ∧
    (EncoderHuffmanTree.fromProbabilities w).getD (2 * w.length - 2) 0 = 0 ∧
    (∀ s, s < w.length → ∃ code,
      PathTo (EncoderHuffmanTree.fromProbabilities w) s (2 * w.length - 2)
        code ∧
      ∀ rest, decodeFrom (DecoderHuffmanTree.fromProbabilities w) w.length
        (2 * w.length - 2) (code ++ rest) = some (s, rest)) := by
  obtain ⟨E, D, hEeq, hDeq, hElen, hDlen, hpfx, hmono, hkids, hrz, hrt⟩ :=
    huffLoop_spec w.length w.length (initHeap w)
      (List.replicate (2 * w.length - 1) 0) [] (huffInv_init w hn)
      (by simp only [initHeap, List.length_map, List.enum_length]; omega)
  simp only [List.length_nil, Nat.add_zero] at hEeq hDeq
  have hEfp : EncoderHuffmanTree.fromProbabilities w = E := by
    rw [EncoderHuffmanTree.fromProbabilities]
    exact hEeq
  have hDfp : DecoderHuffmanTree.fromProbabilities w = D := by
    rw [DecoderHuffmanTree.fromProbabilities]
    exact hDeq
  rw [hEfp, hDfp]
  exact ⟨hElen, hDlen, hmono, hkids, hrz, hrt⟩

theorem huffEncodeSymbol_of_path (w : List Nat) (hn : 0 < w.length)
    (s : Nat) (hs : s < w.length) (code : List Bool)
    (hpath : PathTo (EncoderHuffmanTree.fromProbabilities w) s
      (2 * w.length - 2) code) :
    EncoderHuffmanTree.encodeSymbol (EncoderHuffmanTree.fromProbabilities w)
      s = some code := by
  obtain ⟨hElen, hDlen, hmono, hkids, hrz, hrt⟩ := fromProbabilities_spec w hn
  rw [EncoderHuffmanTree.encodeSymbol]
  rw [if_neg (by rw [hElen]; omega)]
  have hlenb := pathTo_len (EncoderHuffmanTree.fromProbabilities w)
    (fun i hi => (hmono i hi).1) s _ code hpath
  have h1 := encodeWalk_of_path (EncoderHuffmanTree.fromProbabilities w)
    code s _ hpath hrz [] (EncoderHuffmanTree.fromProbabilities w).length
    (by rw [hElen]; omega)
  simpa using h1

theorem huffDecodeSymbol_eq (w : List Nat) (hn : 0 < w.length)
    (bits : List Bool) :
    DecoderHuffmanTree.decodeSymbol (DecoderHuffmanTree.fromProbabilities w)
      bits = decodeFrom (DecoderHuffmanTree.fromProbabilities w) w.length
      (2 * w.length - 2) bits := by
  obtain ⟨hElen, hDlen, hmono, hkids, hrz, hrt⟩ := fromProbabilities_spec w hn
  rw [DecoderHuffmanTree.decodeSymbol, hDlen]
  rw [show w.length - 1 + 1 = w.length by omega]
  rw [show 2 * (w.length - 1) = 2 * w.length - 2 by omega]

/-- **C5.** Huffman round trip: for every weight vector of length `n ≥ 1`
and every symbol `s < n`, `encode_symbol` on the encoder tree yields a
codeword which `decode_symbol` on the decoder tree maps back to `s`,
consuming exactly the emitted bits (any appended `rest` is returned
unconsumed); and the codewords form a prefix code (a codeword that is a
prefix of another belongs to the same symbol). -/
theorem huffman_round_trip (w : List Nat) (hn : 0 < w.length) :
    ∀ s, s < w.length → ∃ code,
      EncoderHuffmanTree.encodeSymbol (EncoderHuffmanTree.fromProbabilities w)
        s = some code ∧
      (∀ rest, DecoderHuffmanTree.decodeSymbol
        (DecoderHuffmanTree.fromProbabilities w) (code ++ rest) =
        some (s, rest)) ∧
      (∀ s1 code1, s1 < w.length →
        EncoderHuffmanTree.encodeSymbol
          (EncoderHuffmanTree.fromProbabilities w) s1 = some code1 →
        code <+: code1 → s = s1) := by
  obtain ⟨hElen, hDlen, hmono, hkids, hrz, hrt⟩ := fromProbabilities_spec w hn
  intro s hs
  obtain ⟨code, hpath, hdec⟩ := hrt s hs
  refine ⟨code, huffEncodeSymbol_of_path w hn s hs code hpath, ?_, ?_⟩
  · intro rest
    rw [huffDecodeSymbol_eq w hn]
    exact hdec rest
  · intro s1 code1 hs1 henc1 hpre
    obtain ⟨code1a, hpath1, hdec1⟩ := hrt s1 hs1
    have henc1a := huffEncodeSymbol_of_path w hn s1 hs1 code1a hpath1
    rw [henc1a] at henc1
    have hcode1 : code1a = code1 := by
      simpa using henc1
    obtain ⟨t, ht⟩ := hpre
    have h1 := hdec1 []
    rw [hcode1, ← ht, List.append_nil] at h1
    rw [hdec t] at h1
    simp at h1
    exact h1.1

/-- Witness for C5 at the two-symbol weight vector `[1, 2]`. -/
theorem huffman_round_trip_witness :
    (0 < ([1, 2] : List Nat).length ∧ 0 < ([1, 2] : List Nat).length) ∧
    (∃ code,
      EncoderHuffmanTree.encodeSymbol
        (EncoderHuffmanTree.fromProbabilities [1, 2]) 0 = some code ∧
      (∀ rest, DecoderHuffmanTree.decodeSymbol
        (DecoderHuffmanTree.fromProbabilities [1, 2]) (code ++ rest) =
        some (0, rest)) ∧
      (∀ s1 code1, s1 < ([1, 2] : List Nat).length →
        EncoderHuffmanTree.encodeSymbol
          (EncoderHuffmanTree.fromProbabilities [1, 2]) s1 = some code1 →
        code <+: code1 → 0 = s1)) :=
  ⟨⟨by decide, by decide⟩,
    huffman_round_trip [1, 2] (by decide) 0 (by decide)⟩

/-- **C10.** Huffman tree walks terminate: in the encoder tree every
non-root entry points to a strictly larger parent index, so the
`encode_symbol` loop reaches the root and the codeword has at most `n - 1`
bits; in the decoder tree every child entry of node `k` is below
`num_symbols + k`, so the `decode_symbol` loop strictly decreases and
reaches a leaf after consuming at most `n - 1` bits. -/
theorem huffman_walk_termination (w : List Nat) (hn : 0 < w.length) :
    (∀ i, (EncoderHuffmanTree.fromProbabilities w).getD i 0 ≠ 0 →
      i < (EncoderHuffmanTree.fromProbabilities w).getD i 0 >>> 1) ∧
    (∀ k, k < (DecoderHuffmanTree.fromProbabilities w).length →
      ((DecoderHuffmanTree.fromProbabilities w).getD k (0, 0)).1 <
        w.length + k ∧
      ((DecoderHuffmanTree.fromProbabilities w).getD k (0, 0)).2 <
        w.length + k) ∧
    (∀ s, s < w.length → ∃ code,
      EncoderHuffmanTree.encodeSymbol
        (EncoderHuffmanTree.fromProbabilities w) s = some code ∧
      code.length ≤ w.length - 1) ∧
    (∀ bits, w.length - 1 ≤ bits.length → ∃ s rest,
      DecoderHuffmanTree.decodeSymbol
        (DecoderHuffmanTree.fromProbabilities w) bits = some (s, rest) ∧
      s < w.length ∧ bits.length - rest.length ≤ w.length - 1) := by
  obtain ⟨hElen, hDlen, hmono, hkids, hrz, hrt⟩ := fromProbabilities_spec w hn
  refine ⟨fun i hi => (hmono i hi).1, hkids, ?_, ?_⟩
  · intro s hs
    obtain ⟨code, hpath, hdec⟩ := hrt s hs
    refine ⟨code, huffEncodeSymbol_of_path w hn s hs code hpath, ?_⟩
    cases hpath with
    | nil => simp
    | cons i r code hne hrec =>
      have hpt := hmono s hne
      have hlb := pathTo_len (EncoderHuffmanTree.fromProbabilities w)
        (fun i hi => (hmono i hi).1) _ _ code hrec
      simp only [List.length_append, List.length_cons, List.length_nil]
      omega
  · intro bits hbits
    obtain ⟨s, rest, hEq, hslt, hcons, hle⟩ :=
      decodeFrom_total (DecoderHuffmanTree.fromProbabilities w) w.length
        hkids (2 * w.length - 2) bits (by omega) (by omega)
    refine ⟨s, rest, ?_, hslt, by omega⟩
    rw [huffDecodeSymbol_eq w hn]
    exact hEq

/-- Witness for C10 at the two-symbol weight vector `[1, 2]`. -/
theorem huffman_walk_termination_witness :
    (0 < ([1, 2] : List Nat).length) ∧
    ((∀ i, (EncoderHuffmanTree.fromProbabilities [1, 2]).getD i 0 ≠ 0 →
      i < (EncoderHuffmanTree.fromProbabilities [1, 2]).getD i 0 >>> 1) ∧
    (∀ k, k < (DecoderHuffmanTree.fromProbabilities [1, 2]).length →
      ((DecoderHuffmanTree.fromProbabilities [1, 2]).getD k (0, 0)).1 <
        ([1, 2] : List Nat).length + k ∧
      ((DecoderHuffmanTree.fromProbabilities [1, 2]).getD k (0, 0)).2 <
        ([1, 2] : List Nat).length + k) ∧
    (∀ s, s < ([1, 2] : List Nat).length → ∃ code,
      EncoderHuffmanTree.encodeSymbol
        (EncoderHuffmanTree.fromProbabilities [1, 2]) s = some code ∧
      code.length ≤ ([1, 2] : List Nat).length - 1) ∧
    (∀ bits, ([1, 2] : List Nat).length - 1 ≤ bits.length → ∃ s rest,
      DecoderHuffmanTree.decodeSymbol
        (DecoderHuffmanTree.fromProbabilities [1, 2]) bits = some (s, rest) ∧
      s < ([1, 2] : List Nat).length ∧
      bits.length - rest.length ≤ ([1, 2] : List Nat).length - 1)) :=
  ⟨by decide, huffman_walk_termination [1, 2] (by decide)⟩
